import Mathlib

/-!
Verification development for the symbolic expression and constraint subsystem
(expression DAG, constraint manager with independent-set partition, independent
solver and model assembler).  The definitions embed the source files
`lib/Expr/Constraints.cpp` (constraint manager), the header `Expr.h`
(expression data model) and `IndependentSolver.cpp` (independent filter,
per-factor and batched initial-value computation).  Parts of the repository
that are referenced but whose sources are absent (the expression constructors
of `Expr.cpp`, `IndependentElementSet.h`, `Assignment.h`, the expression
visitor) are modelled from the specification and are marked as such in their
doc comments.
-/

namespace KleeER

/-- Byte-array descriptor, from class `Array` in `Expr.h`: a name, a size in
bytes, a domain width (index bits) and a range width (element bits).  The
source uniques descriptors by pointer through the array cache; here identity
is structural, which coincides with cache behaviour for distinct names. -/
structure Arr where
  name : String
  size : Nat
  domain : Nat := 32
  range : Nat := 8
deriving DecidableEq, Repr

/-- Binary arithmetic/bitwise kinds of `Expr::Kind` (`Add`..`AShr`). -/
inductive BinKind where
  | add | sub | mul | udiv | sdiv | urem | srem
  | and | or | xor | shl | lshr | ashr
deriving DecidableEq, Repr

/-- Comparison kinds of `Expr::Kind` (`Eq`..`Sge`); `ne, ugt, uge, sgt, sge`
are accepted on input but rewritten by the constructors. -/
inductive CmpKind where
  | eq | ne | ult | ule | ugt | uge | slt | sle | sgt | sge
deriving DecidableEq, Repr

mutual
/-- Expression node, from `Expr.h`: a tagged immutable term.  `read` carries
the update list (array root plus chain of update nodes) of `ReadExpr`;
`binop`/`cmp` group the per-kind subclasses generated by
`ARITHMETIC_EXPR_CLASS` / `COMPARISON_EXPR_CLASS` by their kind tag. -/
inductive Expr where
  | const (width : Nat) (val : Nat)
  | notOptimized (src : Expr)
  | read (root : Arr) (updates : UpdNodes) (index : Expr)
  | select (cond tExpr fExpr : Expr)
  | concat (hi lo : Expr)
  | extract (src : Expr) (offset width : Nat)
  | zext (src : Expr) (width : Nat)
  | sext (src : Expr) (width : Nat)
  | not (src : Expr)
  | binop (op : BinKind) (left right : Expr)
  | cmp (op : CmpKind) (left right : Expr)
deriving Repr

/-- Write history on a byte array, from class `UpdateNode` in `Expr.h`: each
node is a pair of index and value expressions plus the previous node. -/
inductive UpdNodes where
  | nil
  | node (index value : Expr) (next : UpdNodes)
deriving Repr
end

deriving instance DecidableEq for Expr
deriving instance DecidableEq for UpdNodes

/-- Width of an expression in bits, following the per-class `getWidth`
implementations in `Expr.h` (comparisons are `Bool`-width 1, a read has the
array's range width, a binary operation takes its left kid's width, a concat
adds its kids' widths). -/
def Expr.width : Expr → Nat
  | .const w _ => w
  | .notOptimized s => s.width
  | .read root _ _ => root.range
  | .select _ t _ => t.width
  | .concat hi lo => hi.width + lo.width
  | .extract _ _ w => w
  | .zext _ w => w
  | .sext _ w => w
  | .not s => s.width
  | .binop _ l _ => l.width
  | .cmp _ _ _ => 1

/-- `Expr::Bool` — boolean expressions have width 1. -/
def boolWidth : Nat := 1

/-- The canonical true constant (`ConstantExpr` of width `Bool`, value 1). -/
def trueExpr : Expr := .const 1 1

/-- The canonical false constant (`ConstantExpr` of width `Bool`, value 0). -/
def falseExpr : Expr := .const 1 0

/-- `isa<ConstantExpr>(e)`. -/
def Expr.isConst : Expr → Bool
  | .const _ _ => true
  | _ => false

/-- `Expr::isTrue` — a width-1 constant with nonzero value. -/
def Expr.isTrue : Expr → Bool
  | .const w v => w = 1 && v ≠ 0
  | _ => false

/-- `Expr::isFalse` — a width-1 constant with value zero. -/
def Expr.isFalse : Expr → Bool
  | .const w v => w = 1 && v = 0
  | _ => false

/-- `isa<EqExpr>(e)`. -/
def Expr.isEq : Expr → Bool
  | .cmp .eq _ _ => true
  | _ => false

end KleeER

namespace KleeER

/-- Truncate a value to `w` bits (the arbitrary-precision arithmetic of the
source is `llvm::APInt` at a fixed bit width). -/
def truncBits (w v : Nat) : Nat := v % 2 ^ w

/-- Two's-complement reading of a `w`-bit value. -/
def toSigned (w v : Nat) : Int :=
  if v < 2 ^ (w - 1) then (v : Int) else (v : Int) - 2 ^ w

/-- Two's-complement encoding of an integer into `w` bits. -/
def ofSigned (w : Nat) (i : Int) : Nat := (i % ((2 : Int) ^ w)).toNat

/-- Constant folding of the binary kinds at width `w` (the `APInt` operations
used by `ConstantExpr`).  Division and remainder by zero are undefined in the
source (an `APInt` assertion); the model totalises them as 0 resp. the left
operand, a case no claim exercises. -/
def evalBin (op : BinKind) (w a b : Nat) : Nat :=
  match op with
  | .add => truncBits w (a + b)
  | .sub => ofSigned w ((a : Int) - (b : Int))
  | .mul => truncBits w (a * b)
  | .udiv => if b = 0 then 0 else truncBits w (a / b)
  | .sdiv =>
    if toSigned w b = 0 then 0
    else ofSigned w (Int.tdiv (toSigned w a) (toSigned w b))
  | .urem => if b = 0 then truncBits w a else truncBits w (a % b)
  | .srem =>
    if toSigned w b = 0 then truncBits w a
    else ofSigned w (Int.tmod (toSigned w a) (toSigned w b))
  | .and => truncBits w (Nat.land a b)
  | .or => truncBits w (Nat.lor a b)
  | .xor => truncBits w (a ^^^ b)
  | .shl => truncBits w (a <<< b)
  | .lshr => truncBits w (a >>> b)
  | .ashr => ofSigned w (Int.fdiv (toSigned w a) (2 ^ b))

/-- Constant folding of the comparison kinds at operand width `w`. -/
def evalCmpB (op : CmpKind) (w a b : Nat) : Bool :=
  match op with
  | .eq => a = b
  | .ne => a ≠ b
  | .ult => a < b
  | .ule => a ≤ b
  | .ugt => b < a
  | .uge => b ≤ a
  | .slt => toSigned w a < toSigned w b
  | .sle => toSigned w a ≤ toSigned w b
  | .sgt => toSigned w b < toSigned w a
  | .sge => toSigned w b ≤ toSigned w a

/-- A boolean as a width-1 constant expression. -/
def boolToExpr (b : Bool) : Expr := if b then trueExpr else falseExpr

/-- Modelled from the spec: the `NotExpr::create` constructor of the missing
`Expr.cpp` — constants fold bitwise (spec section 4.1, constant folding), and
a double negation collapses (spec scenario S6). -/
def mkNot : Expr → Expr
  | .const w v => .const w (truncBits w (2 ^ w - 1 - truncBits w v))
  | .not s => s
  | e => .not e

/-- Modelled from the spec: `SelectExpr::create` — a constant condition picks
a branch, and identical branches collapse. -/
def mkSelect (c t f : Expr) : Expr :=
  if c.isTrue then t
  else if c.isFalse then f
  else if t = f then t
  else .select c t f

/-- Modelled from the spec: `ConcatExpr::create` — all-constant kids fold and
chains right-unbalance (spec section 3, canonicalization invariant 5). -/
def mkConcat : Expr → Expr → Expr
  | .const wh vh, .const wl vl => .const (wh + wl) (truncBits wh vh * 2 ^ wl + truncBits wl vl)
  | .concat a b, lo => mkConcat a (mkConcat b lo)
  | hi, lo => .concat hi lo

/-- Modelled from the spec: `ExtractExpr::create` — constants fold and a
fully-covering extract collapses (spec section 4.1, Extract/Concat folding). -/
def mkExtract (e : Expr) (off w : Nat) : Expr :=
  match e with
  | .const _ v => .const w (truncBits w (v >>> off))
  | e => if off = 0 ∧ w = e.width then e else .extract e off w

/-- Modelled from the spec: `ZExtExpr::create` — cast to the same width is the
identity, to a smaller width an extract, and constants fold (spec section 4.1,
cast folding). -/
def mkZExt (e : Expr) (w : Nat) : Expr :=
  if w = e.width then e
  else if w < e.width then mkExtract e 0 w
  else match e with
    | .const _ v => .const w (truncBits w v)
    | e => .zext e w

/-- Modelled from the spec: `SExtExpr::create`, analogously to `mkZExt`. -/
def mkSExt (e : Expr) (w : Nat) : Expr :=
  if w = e.width then e
  else if w < e.width then mkExtract e 0 w
  else match e with
    | .const w0 v => .const w (ofSigned w (toSigned w0 v))
    | e => .sext e w

/-- Modelled from the spec: the binary arithmetic/bitwise constructors of the
missing `Expr.cpp`.  All-constant kids fold; the identity/zero elements of
spec section 4.1 apply; a commutative operation with one constant kid puts the
constant on the left (spec canonicalization invariant 2). -/
def mkBin (op : BinKind) (l r : Expr) : Expr :=
  match l, r with
  | .const w a, .const _ b => Expr.const w (evalBin op w a b)
  | _, _ =>
    match op with
    | .add =>
      match l, r with
      | .const _ 0, x => x
      | x, .const _ 0 => x
      | x, .const w c => .binop .add (.const w c) x
      | _, _ => .binop .add l r
    | .sub => if l = r then .const l.width 0 else .binop .sub l r
    | .mul =>
      match l, r with
      | .const w 0, _ => .const w 0
      | _, .const w 0 => .const w 0
      | .const _ 1, x => x
      | x, .const _ 1 => x
      | x, .const w c => .binop .mul (.const w c) x
      | _, _ => .binop .mul l r
    | .and =>
      if l = r then l
      else
        match l, r with
        | .const w 0, _ => .const w 0
        | _, .const w 0 => .const w 0
        | .const w c, x => if c = 2 ^ w - 1 then x else .binop .and (.const w c) x
        | x, .const w c => if c = 2 ^ w - 1 then x else .binop .and (.const w c) x
        | _, _ => .binop .and l r
    | .or =>
      if l = r then l
      else
        match l, r with
        | .const _ 0, x => x
        | x, .const _ 0 => x
        | x, .const w c => .binop .or (.const w c) x
        | _, _ => .binop .or l r
    | .xor =>
      if l = r then .const l.width 0
      else
        match l, r with
        | .const _ 0, x => x
        | x, .const _ 0 => x
        | x, .const w c => .binop .xor (.const w c) x
        | _, _ => .binop .xor l r
    | .shl => match r with | .const _ 0 => l | _ => .binop .shl l r
    | .lshr => match r with | .const _ 0 => l | _ => .binop .lshr l r
    | .ashr => match r with | .const _ 0 => l | _ => .binop .ashr l r
    | op => .binop op l r

/-- Modelled from the spec: `EqExpr::create` with a constant on the left —
a boolean equality with constant-false left becomes a `Not` and with
constant-true left the right kid (spec section 4.1, comparison
normalization). -/
def mkEqConstLeft (w c : Nat) (x : Expr) : Expr :=
  if w = 1 then (if c = 0 then mkNot x else x)
  else .cmp .eq (.const w c) x

/-- Modelled from the spec: `EqExpr::create` — constants fold, syntactically
equal sides fold to true, and a constant kid moves to the left. -/
def mkCmpEq (l r : Expr) : Expr :=
  match l, r with
  | .const _ a, .const _ b => boolToExpr (a = b)
  | _, _ =>
    if l = r then trueExpr
    else
      match l, r with
      | .const w c, x => mkEqConstLeft w c x
      | x, .const w c => mkEqConstLeft w c x
      | _, _ => .cmp .eq l r

/-- Modelled from the spec: the canonical inequality constructors (`Ult`,
`Ule`, `Slt`, `Sle`) — constants fold, other shapes build the node.  `op` is
expected to be one of the four canonical kinds. -/
def mkCmpOrd (op : CmpKind) (l r : Expr) : Expr :=
  match l, r with
  | .const w a, .const _ b => boolToExpr (evalCmpB op w a b)
  | _, _ => .cmp op l r

/-- Modelled from the spec: the comparison constructors, including the
normalization of spec section 4.1: `Ne` becomes `Not(Eq)` and `Ugt, Uge, Sgt,
Sge` swap their operands into the canonical kinds. -/
def mkCmp (op : CmpKind) (l r : Expr) : Expr :=
  match op with
  | .eq => mkCmpEq l r
  | .ne => mkNot (mkCmpEq l r)
  | .ugt => mkCmpOrd .ult r l
  | .uge => mkCmpOrd .ule r l
  | .sgt => mkCmpOrd .slt r l
  | .sge => mkCmpOrd .sle r l
  | op => mkCmpOrd op l r

/-- `Expr::createIsZero` — the equality of an expression with the zero
constant of its width (used by the independent solver to negate a query). -/
def createIsZero (e : Expr) : Expr := mkCmpEq e (.const e.width 0)

end KleeER

namespace KleeER

/-- A total byte assignment: for each array, a byte value at each index.  This
is the semantic ground truth against which constraints and queries are
interpreted (the denotation of the expression language). -/
def Asgn : Type := Arr → Nat → Nat

mutual
/-- Denotational semantics of an expression under a byte assignment.  A read
walks its update list newest-first (the effective state described for update
lists in spec section 3) and falls through to the assignment; every result is
truncated to the width of the node that produced it. -/
def evalE (A : Asgn) : Expr → Nat
  | .const w v => truncBits w v
  | .notOptimized s => evalE A s
  | .read root ups idx => evalUpd A root ups (evalE A idx)
  | .select c t f => if evalE A c ≠ 0 then evalE A t else evalE A f
  | .concat hi lo => evalE A hi * 2 ^ lo.width + evalE A lo
  | .extract s off w => truncBits w (evalE A s >>> off)
  | .zext s w => truncBits w (evalE A s)
  | .sext s w => ofSigned w (toSigned s.width (evalE A s))
  | .not s => truncBits s.width (2 ^ s.width - 1 - evalE A s)
  | .binop op l r => evalBin op l.width (evalE A l) (evalE A r)
  | .cmp op l r => if evalCmpB op l.width (evalE A l) (evalE A r) then 1 else 0

/-- The value of byte `i` of an array under an update chain: the newest update
whose index evaluates to `i` wins, otherwise the assignment's byte. -/
def evalUpd (A : Asgn) (root : Arr) : UpdNodes → Nat → Nat
  | .nil, i => truncBits root.range (A root i)
  | .node uidx uval next, i =>
    if evalE A uidx = i then truncBits root.range (evalE A uval)
    else evalUpd A root next i
end

mutual
/-- The reads occurring in an expression DAG, each as the array read paired
with `some` concrete byte index (for a constant read index) or `none` (for a
symbolic one).  This is the scan described for independent-element-set
construction in spec section 4.3, including the reads inside update lists. -/
def readsOf : Expr → List (Arr × Option Nat)
  | .const _ _ => []
  | .notOptimized s => readsOf s
  | .read root ups idx =>
    (root, match idx with | .const w v => some (truncBits w v) | _ => none)
      :: (readsOf idx ++ readsUpd ups)
  | .select c t f => readsOf c ++ readsOf t ++ readsOf f
  | .concat hi lo => readsOf hi ++ readsOf lo
  | .extract s _ _ => readsOf s
  | .zext s _ => readsOf s
  | .sext s _ => readsOf s
  | .not s => readsOf s
  | .binop _ l r => readsOf l ++ readsOf r
  | .cmp _ l r => readsOf l ++ readsOf r

/-- The reads occurring in the index and value expressions of an update
chain. -/
def readsUpd : UpdNodes → List (Arr × Option Nat)
  | .nil => []
  | .node uidx uval next => readsOf uidx ++ readsOf uval ++ readsUpd next
end

/-- The footprint of an expression as a predicate: byte `i` of array `a` is
touched when the expression reads it concretely or reads the array at a
symbolic index. -/
def touches (e : Expr) (a : Arr) (i : Nat) : Prop :=
  (a, some i) ∈ readsOf e ∨ (a, none) ∈ readsOf e

/-- Association-list lookup for the dense-byte-set map of an element set. -/
def lookupElems (m : List (Arr × List Nat)) (a : Arr) : Option (List Nat) :=
  match m.find? (fun p => p.1 = a) with
  | some p => some p.2
  | none => none

/-- Insert a concrete byte index into the dense-set map. -/
def insertElemIdx (m : List (Arr × List Nat)) (a : Arr) (i : Nat) :
    List (Arr × List Nat) :=
  match m with
  | [] => [(a, [i])]
  | (b, xs) :: rest =>
    if b = a then (b, if i ∈ xs then xs else xs ++ [i]) :: rest
    else (b, xs) :: insertElemIdx rest a i

/-- Remove an array's entry from the dense-set map. -/
def removeElems (m : List (Arr × List Nat)) (a : Arr) : List (Arr × List Nat) :=
  m.filter (fun p => p.1 ≠ a)

/-- Modelled from the spec: the independent-element set of the missing
`IndependentElementSet.h` — a map from array to the dense set of concretely
read byte indices, the set of arrays read at symbolic indices
("whole-object"), and the recorded constituent expressions (spec sections 3
and 4.3). -/
structure IES where
  elements : List (Arr × List Nat)
  wholeObjects : List Arr
  exprs : List Expr
deriving DecidableEq, Repr

/-- The empty element set (`IndependentElementSet current;` before the query
factor is filled in). -/
def IES.empty : IES := { elements := [], wholeObjects := [], exprs := [] }

/-- One collected read folded into the (dense sets, whole objects) state: a
concrete index is inserted unless the array is already whole-object; a
symbolic index promotes the array to whole-object and drops its dense set. -/
def iesStep (st : List (Arr × List Nat) × List Arr) (r : Arr × Option Nat) :
    List (Arr × List Nat) × List Arr :=
  match r with
  | (a, some i) =>
    if st.2.contains a then st else (insertElemIdx st.1 a i, st.2)
  | (a, none) =>
    (removeElems st.1 a, if st.2.contains a then st.2 else st.2 ++ [a])

/-- Modelled from the spec: construction of an element set from one
expression — scan the DAG collecting every read; concrete indices become
byte-set entries, symbolic indices mark the whole array (and a whole-object
reference subsumes any per-index set for the same array). -/
def iesOfExpr (e : Expr) : IES :=
  let scanned := (readsOf e).foldl iesStep ([], [])
  { elements := scanned.1, wholeObjects := scanned.2, exprs := [e] }

/-- Modelled from the spec: `IndependentElementSet::intersects` — true iff
some array appears in both sets, either as whole-object on either side or
with overlapping byte-sets (spec section 4.3). -/
def IES.intersects (a b : IES) : Bool :=
  a.wholeObjects.any (fun x =>
    b.wholeObjects.contains x || (lookupElems b.elements x).isSome) ||
  b.wholeObjects.any (fun x => (lookupElems a.elements x).isSome) ||
  a.elements.any (fun p =>
    match lookupElems b.elements p.1 with
    | some ys => p.2.any (fun i => ys.contains i)
    | none => false)

/-- Union of two dense-set maps (used by `IES.add`). -/
def unionElems (m n : List (Arr × List Nat)) : List (Arr × List Nat) :=
  n.foldl (fun acc p => p.2.foldl (fun acc2 i => insertElemIdx acc2 p.1 i) acc) m

/-- Modelled from the spec: `IndependentElementSet::add` — union of
byte-sets, promoting to whole-object where either side is whole-object, and
concatenation of the recorded expression lists (spec section 4.3). -/
def IES.add (a b : IES) : IES :=
  let whole := a.wholeObjects ++ b.wholeObjects.filter (fun x => ¬ a.wholeObjects.contains x)
  let elems := (unionElems a.elements b.elements).filter (fun p => ¬ whole.contains p.1)
  { elements := elems, wholeObjects := whole, exprs := a.exprs ++ b.exprs }

/-- Decidable membership of one byte in the footprint described by an element
set: the array is whole-object, or the byte index is in its dense set. -/
def IES.covers (s : IES) (a : Arr) (i : Nat) : Bool :=
  s.wholeObjects.contains a ||
  (match lookupElems s.elements a with
   | some xs => xs.contains i
   | none => false)

end KleeER

namespace KleeER

/-- Modelled from the spec: `ReadExpr::create` of the missing `Expr.cpp`
(spec section 4.1, read over update list): a constant head index equal to a
constant read index substitutes the stored value; an unequal constant pair
selects between the value and the rest of the chain (which the select
constructor folds to the rest); a symbolic head builds the node. -/
def mkRead (root : Arr) (ups : UpdNodes) (idx : Expr) : Expr :=
  match ups, idx with
  | .node (.const wi vi) uv next, .const wj vj =>
    if truncBits wi vi = truncBits wj vj then uv
    else mkSelect (mkCmpEq (.const wi vi) (.const wj vj)) uv
      (mkRead root next (.const wj vj))
  | ups, idx => .read root ups idx

/-- Association-list lookup in an expression-to-expression map
(`std::map<ref<Expr>, ref<Expr>>` keyed by structural comparison). -/
def lookupEq (m : List (Expr × Expr)) (k : Expr) : Option Expr :=
  match m.find? (fun p => p.1 = k) with
  | some p => some p.2
  | none => none

/-- `m[k] = v` on an expression map: replace an existing binding or append. -/
def setEq (m : List (Expr × Expr)) (k v : Expr) : List (Expr × Expr) :=
  match m with
  | [] => [(k, v)]
  | (a, b) :: rest => if a = k then (a, v) :: rest else (a, b) :: setEq rest k v

/-- `m.erase(k)` on an expression map. -/
def eraseEq (m : List (Expr × Expr)) (k : Expr) : List (Expr × Expr) :=
  m.filter (fun p => p.1 ≠ k)

mutual
/-- Modelled from the spec: the map-substitution visitor
(`ExprReplaceVisitor2`, spec section 4.2) — a memoized bottom-up traversal
that rebuilds each non-constant node from its visited kids through the
folding constructors and then replaces the result when it is a key of the
equalities map.  Constants are returned unchanged, as in
`ExprVisitor::visit`. -/
def substMapE (m : List (Expr × Expr)) (e : Expr) : Expr :=
  match e with
  | .const w v => .const w v
  | .notOptimized s => substMapPost m (.notOptimized (substMapE m s))
  | .read root ups idx =>
    substMapPost m (mkRead root (substMapU m ups) (substMapE m idx))
  | .select c t f =>
    substMapPost m (mkSelect (substMapE m c) (substMapE m t) (substMapE m f))
  | .concat hi lo => substMapPost m (mkConcat (substMapE m hi) (substMapE m lo))
  | .extract s o w => substMapPost m (mkExtract (substMapE m s) o w)
  | .zext s w => substMapPost m (mkZExt (substMapE m s) w)
  | .sext s w => substMapPost m (mkSExt (substMapE m s) w)
  | .not s => substMapPost m (mkNot (substMapE m s))
  | .binop op l r => substMapPost m (mkBin op (substMapE m l) (substMapE m r))
  | .cmp op l r => substMapPost m (mkCmp op (substMapE m l) (substMapE m r))

/-- The `visitExprPost` action of `ExprReplaceVisitor2`: replace a node that
is a key of the map by its image (always a constant in this manager). -/
def substMapPost (m : List (Expr × Expr)) (e : Expr) : Expr :=
  match lookupEq m e with
  | some d => d
  | none => e

/-- `ExprReplaceVisitorBase::visitUpdateNode` for the map visitor: rewrite
the index and value expressions along the chain. -/
def substMapU (m : List (Expr × Expr)) : UpdNodes → UpdNodes
  | .nil => .nil
  | .node i v next => .node (substMapE m i) (substMapE m v) (substMapU m next)
end

mutual
/-- Modelled from the spec: the single-substitution visitor
(`ExprReplaceVisitor`, spec section 4.2) — replaces every occurrence of `src`
by `dst`, checking both before descending (`visitExpr`) and after rebuilding
(`visitExprPost`); the rebuild goes through the folding constructors. -/
def substOneE (src dst : Expr) (e : Expr) : Expr :=
  match e with
  | .const w v => .const w v
  | e =>
    if e = src then dst
    else
      substOnePost src dst
        (match e with
         | .const w v => .const w v
         | .notOptimized s => .notOptimized (substOneE src dst s)
         | .read root ups idx =>
           mkRead root (substOneU src dst ups) (substOneE src dst idx)
         | .select c t f =>
           mkSelect (substOneE src dst c) (substOneE src dst t) (substOneE src dst f)
         | .concat hi lo => mkConcat (substOneE src dst hi) (substOneE src dst lo)
         | .extract s o w => mkExtract (substOneE src dst s) o w
         | .zext s w => mkZExt (substOneE src dst s) w
         | .sext s w => mkSExt (substOneE src dst s) w
         | .not s => mkNot (substOneE src dst s)
         | .binop op l r => mkBin op (substOneE src dst l) (substOneE src dst r)
         | .cmp op l r => mkCmp op (substOneE src dst l) (substOneE src dst r))

/-- The `visitExprPost` action of `ExprReplaceVisitor`. -/
def substOnePost (src dst e : Expr) : Expr :=
  if e = src then dst else e

/-- `visitUpdateNode` for the single-substitution visitor. -/
def substOneU (src dst : Expr) : UpdNodes → UpdNodes
  | .nil => .nil
  | .node i v next =>
    .node (substOneE src dst i) (substOneE src dst v) (substOneU src dst next)
end

/-- The command-line configuration that `Constraints.cpp` consults: the
`rewrite-equalities` option and `UseIndependentSolver`. -/
structure Cfg where
  rewriteEqualities : Bool
  useIndependentSolver : Bool
deriving DecidableEq, Repr

/-- The state of `ConstraintManager` (fields reconstructed from their uses in
`Constraints.cpp`): the ordered constraint sequence, the scratch vectors
`old`, `addedConstraints` and `deleteConstraints`, the equalities map, the
representative map from each recorded constraint to its factor, and the
factor set.  Factors are held by value; the source holds them by pointer and
the representative aliases the factor objects, which the value model mirrors
by retargeting representative entries whenever a factor is updated in
place. -/
structure CM where
  constraints : List Expr
  old : List Expr
  addedConstraints : List Expr
  deleteConstraints : List Expr
  equalities : List (Expr × Expr)
  representative : List (Expr × IES)
  factors : List IES
deriving DecidableEq, Repr

/-- The freshly constructed (empty) constraint manager. -/
def CM.empty : CM :=
  { constraints := [], old := [], addedConstraints := [], deleteConstraints := []
    equalities := [], representative := [], factors := [] }

/-- `representative.find(e)` as an association-list lookup. -/
def lookupRep (m : List (Expr × IES)) (k : Expr) : Option IES :=
  match m.find? (fun p => p.1 = k) with
  | some p => some p.2
  | none => none

/-- `representative[k] = f`. -/
def setRep (m : List (Expr × IES)) (k : Expr) (f : IES) : List (Expr × IES) :=
  match m with
  | [] => [(k, f)]
  | (a, b) :: rest => if a = k then (a, f) :: rest else (a, b) :: setRep rest k f

/-- `representative.erase(k)`. -/
def eraseRep (m : List (Expr × IES)) (k : Expr) : List (Expr × IES) :=
  m.filter (fun p => p.1 ≠ k)

/-- Value-model counterpart of in-place factor mutation: every representative
entry that aliased the old factor value now aliases the new one. -/
def retargetRep (m : List (Expr × IES)) (oldF newF : IES) : List (Expr × IES) :=
  m.map (fun p => if p.2 = oldF then (p.1, newF) else p)

/-- `ConstraintManager::simplifyExpr`: constants are returned unchanged,
anything else is rewritten under the current equalities map. -/
def CM.simplify (cm : CM) (e : Expr) : Expr :=
  if e.isConst then e else substMapE cm.equalities e

/-- Append a constraint to both `constraints` and `addedConstraints` (the
push pair in the `Eq` and default cases of `addConstraintInternal`). -/
def pushConstraint (cm : CM) (e : Expr) : CM :=
  { cm with constraints := cm.constraints ++ [e]
            addedConstraints := cm.addedConstraints ++ [e] }

/-- Append a constraint to `constraints` only (the unchanged branch of
`rewriteConstraints`). -/
def keepConstraint (cm : CM) (e : Expr) : CM :=
  { cm with constraints := cm.constraints ++ [e] }

mutual
/-- `ConstraintManager::addConstraintInternal`, fuelled: duplicate
constraints (already in the representative map) are dropped; a constant must
be true (the assert models as failure `none`); `And` splits into both
operands; an equality with a constant left side and a non-equality right side
rewrites the existing constraints when `rewrite-equalities` is on and is then
recorded; everything else is recorded directly.  The boolean result is the
`changed` flag. -/
def addConstraintInternal (cfg : Cfg) : Nat → CM → Expr → Option (CM × Bool)
  | 0, _, _ => none
  | fuel + 1, cm, e =>
    if (lookupRep cm.representative e).isSome then some (cm, false)
    else
      match e with
      | .const w v => if (Expr.const w v).isTrue then some (cm, false) else none
      | .binop .and l r => do
        let (cm1, c1) ← addConstraintInternal cfg fuel cm l
        let (cm2, c2) ← addConstraintInternal cfg fuel cm1 r
        some (cm2, c1 || c2)
      | .cmp .eq l r =>
        if cfg.rewriteEqualities ∧ l.isConst ∧ ¬ r.isEq then do
          let (cm1, c1) ← rewriteConstraintsF cfg fuel (substOneE r l) cm
          some (pushConstraint cm1 (.cmp .eq l r), c1)
        else some (pushConstraint cm (.cmp .eq l r), false)
      | e => some (pushConstraint cm e, false)

/-- `ConstraintManager::rewriteConstraints`, fuelled: swap the constraint
sequence out (into the member `old` when this is the outermost rewrite of the
call, into a local copy otherwise) and rebuild it, re-adding every constraint
the visitor changed. -/
def rewriteConstraintsF (cfg : Cfg) : Nat → (Expr → Expr) → CM → Option (CM × Bool)
  | 0, _, _ => none
  | fuel + 1, vis, cm =>
    if cm.old.isEmpty then
      rewriteLoop cfg fuel vis
        { cm with old := cm.constraints, constraints := [] } cm.constraints false
    else rewriteLoop cfg fuel vis { cm with constraints := [] } cm.constraints false

/-- The rebuild loop of `rewriteConstraints`: an unchanged constraint is
pushed back, a changed one goes through `addConstraintInternal` and sets the
changed flag (its own return value is ignored, as in the source). -/
def rewriteLoop (cfg : Cfg) :
    Nat → (Expr → Expr) → CM → List Expr → Bool → Option (CM × Bool)
  | _, _, cm, [], changed => some (cm, changed)
  | 0, _, _, _ :: _, _ => none
  | fuel + 1, vis, cm, ce :: rest, changed =>
    let e := vis ce
    if e = ce then rewriteLoop cfg fuel vis (keepConstraint cm ce) rest changed
    else do
      let (cm1, _) ← addConstraintInternal cfg fuel cm e
      rewriteLoop cfg fuel vis cm1 rest true
end

/-- `ConstraintManager::checkConstraintChange`: diff the rebuilt constraint
sequence against the `old` snapshot; constraints not found in the snapshot
are recorded as added, snapshot leftovers as deleted. -/
def checkConstraintChange (cm : CM) : CM :=
  let oldSet := cm.old.foldl (fun s e => if e ∈ s then s else s ++ [e]) ([] : List Expr)
  let scan := cm.constraints.foldl
    (fun (p : List Expr × List Expr) c =>
      if c ∈ p.2 then (p.1, p.2.erase c) else (p.1 ++ [c], p.2))
    (([], oldSet) : List Expr × List Expr)
  { cm with old := []
            addedConstraints := cm.addedConstraints ++ scan.1
            deleteConstraints := cm.deleteConstraints ++ scan.2 }

/-- One added constraint folded into the equalities map: an equality with a
constant left side maps its right side to that constant, anything else maps
to the true constant. -/
def eqAddStep (m : List (Expr × Expr)) (refE : Expr) : List (Expr × Expr) :=
  match refE with
  | .cmp .eq l r => if l.isConst then setEq m r l else setEq m refE trueExpr
  | _ => setEq m refE trueExpr

/-- One deleted constraint erased from the equalities map. -/
def eqEraseStep (m : List (Expr × Expr)) (refE : Expr) : List (Expr × Expr) :=
  match refE with
  | .cmp .eq l r => if l.isConst then eraseEq m r else eraseEq m refE
  | _ => eraseEq m refE

/-- `ConstraintManager::updateEqualities`: record the added constraints in
the equalities map, then erase the deleted ones. -/
def updateEqualities (cm : CM) : CM :=
  let eq1 := cm.addedConstraints.foldl eqAddStep cm.equalities
  { cm with equalities := cm.deleteConstraints.foldl eqEraseStep eq1 }

end KleeER

namespace KleeER

/-- The absorption scan shared by the factor-rebuild loops (constructor and
`updateDelete` in `Constraints.cpp`): scan the result vector, unioning into
`current` every set it intersects and removing it; sets it does not intersect
stay.  The source scans with index swaps whose order comes from unspecified
pointer order; the model scans in list order. -/
def absorbIES (current : IES) : List IES → IES × List IES
  | [] => (current, [])
  | f :: rest =>
    if current.intersects f then absorbIES (current.add f) rest
    else
      let scan := absorbIES current rest
      (scan.1, f :: scan.2)

/-- The outer merge loop: pop each candidate, absorb what it intersects, and
append it to the result. -/
def mergeIESLoop : List IES → List IES → List IES
  | [], result => result
  | current :: temp, result =>
    let scan := absorbIES current result
    mergeIESLoop temp (scan.2 ++ [scan.1])

/-- Pairwise-merging of single-expression element sets until fixed point (the
`while (!temp.empty())` loops of `Constraints.cpp`); the source pops from the
back of the vector, hence the reversal. -/
def mergeIESList (temp : List IES) : List IES :=
  match temp.reverse with
  | [] => []
  | first :: rest => mergeIESLoop rest [first]

/-- The grouping pass of `ConstraintManager::updateDelete`: map each deleted
constraint to its factor through the representative map (a missing entry is
the null-pointer dereference of `representative[*it]` on an unknown key,
modelled as failure) and erase its representative entry. -/
def groupDeletes :
    List Expr → List (Expr × IES) → List (IES × List Expr) →
    Option (List (IES × List Expr) × List (Expr × IES))
  | [], rep, groups => some (groups, rep)
  | e :: rest, rep, groups => do
    let f ← lookupRep rep e
    let groups2 :=
      if groups.any (fun g => g.1 = f) then
        groups.map (fun g => if g.1 = f then (g.1, g.2 ++ [e]) else g)
      else groups ++ [(f, [e])]
    groupDeletes rest (eraseRep rep e) groups2

/-- The rebuild of one dirty factor in `updateDelete`: drop the deleted
expressions, form single-expression element sets from the survivors, and
pairwise-merge them to a fixed point. -/
def rebuildGroup (g : IES × List Expr) : List IES :=
  mergeIESList ((g.1.exprs.filter (fun e => ¬ g.2.contains e)).map iesOfExpr)

/-- `ConstraintManager::updateDelete`. -/
def updateDeleteF (cm : CM) : Option CM := do
  let grouped ← groupDeletes cm.deleteConstraints cm.representative []
  let factors1 := cm.factors.filter (fun f => ¬ grouped.1.any (fun g => g.1 = f))
  let step := fun (st : List IES × List (Expr × IES)) (g : IES × List Expr) =>
    let result := rebuildGroup g
    (st.1 ++ result,
     result.foldl (fun r f => f.exprs.foldl (fun r2 e => setRep r2 e f) r) st.2)
  let final := grouped.1.foldl step (factors1, grouped.2)
  some { cm with factors := final.1, representative := final.2 }

/-- One step of the add loop of `ConstraintManager::updateIndependentSet`:
build the new constraint's element set, collect the factors it intersects;
exactly one intersecting factor is extended in place, otherwise a fresh
factor unions all intersecting factors (which are removed). -/
def addOneToPartition (cm : CM) (e : Expr) : CM :=
  let current := iesOfExpr e
  let garbage := cm.factors.filter (fun f => current.intersects f)
  match garbage with
  | [f] =>
    let newF := f.add current
    { cm with
      factors := cm.factors.map (fun g => if g = f then newF else g)
      representative :=
        current.exprs.foldl (fun r e2 => setRep r e2 newF)
          (retargetRep cm.representative f newF) }
  | _ =>
    let current2 := garbage.foldl (fun c g => c.add g) current
    { cm with
      factors := cm.factors.filter (fun f => ¬ garbage.contains f) ++ [current2]
      representative :=
        current2.exprs.foldl (fun r e2 => setRep r e2 current2) cm.representative }

/-- `ConstraintManager::updateIndependentSet`: handle deletions first, then
pop each added constraint (the source pops from the back) into the
partition. -/
def updateIndependentSetF (cm : CM) : Option CM := do
  let cm1 ← if cm.deleteConstraints.isEmpty then some cm else updateDeleteF cm
  some (cm1.addedConstraints.reverse.foldl addOneToPartition
    { cm1 with addedConstraints := [] })

/-- `ConstraintManager::addConstraint`: duplicates return true immediately;
the entry assertions on the scratch vectors model as failure; a constant-false
simplification returns false with the manager untouched; otherwise the
constraint is added internally, the change set is computed when rewriting
changed anything, equalities are updated, and (with the independent solver
enabled) the partition is updated. -/
def addConstraint (cfg : Cfg) (fuel : Nat) (cm : CM) (e : Expr) :
    Option (CM × Bool) :=
  if (lookupRep cm.representative e).isSome then some (cm, true)
  else if ¬ (cm.old.isEmpty ∧ cm.deleteConstraints.isEmpty ∧ cm.addedConstraints.isEmpty) then
    none
  else
    let simplified := cm.simplify e
    if simplified.isFalse then some (cm, false)
    else do
      let step1 ← addConstraintInternal cfg fuel cm simplified
      let cm2 :=
        if step1.2 then checkConstraintChange { step1.1 with addedConstraints := [] }
        else step1.1
      let cm3 := updateEqualities { cm2 with old := [] }
      let cm4 ← if cfg.useIndependentSolver then updateIndependentSetF cm3 else some cm3
      some ({ cm4 with addedConstraints := [], deleteConstraints := [] }, true)

/-- A sequence of `add_constraint` calls, all required to succeed (return
true). -/
def addSeq (cfg : Cfg) (fuel : Nat) : CM → List Expr → Option CM
  | cm, [] => some cm
  | cm, e :: rest => do
    let step ← addConstraint cfg fuel cm e
    if step.2 then addSeq cfg fuel step.1 rest else none

end KleeER

namespace KleeER

/-- A query as carried through the solver chain (`Query` of `Solver.h`): the
constraint manager, the constraint view and the query expression. -/
structure Query where
  cm : CM
  constraints : List Expr
  expr : Expr
deriving Repr

/-- `getIndependentConstraints` of `IndependentSolver.cpp`: the closure is
the element set of the query expression; the recorded expressions of every
factor it intersects are selected (the transitive `add` is commented out in
the source as redundant under factor exclusivity).  Returns the closure and
the selected constraints. -/
def getIndependentConstraints (q : Query) : IES × List Expr :=
  let eltsClosure := iesOfExpr q.expr
  (eltsClosure,
   q.cm.factors.foldl
     (fun acc f => if eltsClosure.intersects f then acc ++ f.exprs else acc) [])

/-- `getAllIndependentConstraintsSets` of `IndependentSolver.cpp`: a constant
query expression must be false (the assert models as `none`); otherwise the
negated query seeds `current`; each factor of the manager is either absorbed
into `current` (when it intersects) or appended to the result.  As in the
source, `current` itself is never appended to the returned list. -/
def getAllIndependentConstraintsSets (q : Query) : Option (List IES) := do
  let current0 ←
    match q.expr with
    | .const w v => if (Expr.const w v).isFalse then some IES.empty else none
    | e => some (iesOfExpr (createIsZero e))
  let scan := q.cm.factors.foldl
    (fun (st : IES × List IES) f =>
      if st.1.intersects f then (st.1.add f, st.2) else (st.1, st.2 ++ [f]))
    (current0, ([] : List IES))
  some scan.2

/-- `calculateArrayReferences`: the arrays referenced by an element set, both
from concrete accesses and whole-object accesses.  The source collects them
in a pointer-ordered `std::set`; the model dedups in first-occurrence
order. -/
def calculateArrayReferences (s : IES) : List Arr :=
  (s.elements.map Prod.fst ++ s.wholeObjects).foldl
    (fun acc a => if a ∈ acc then acc else acc ++ [a]) []

/-- The result of the inner solver's `computeInitialValues`: an outright
failure, no solution, or one byte vector per requested array. -/
inductive InnerRes where
  | fail
  | unsat
  | sat (values : List (List Nat))
deriving DecidableEq, Repr

/-- The inner solver of the chain, abstracted as a function from the shipped
constraint list and array list to its answer. -/
def InnerSolver : Type := List Expr → List Arr → InnerRes

/-- Result of `computeInitialValues` in the model: `err` is a tripped
assertion in the modelled code, `failed` is a `false` return (solver
failure), `noSolution` is a `true` return with `hasSolution = false` (the
source clears the values vector in both of the latter cases), and
`solution` carries the assembled byte vectors. -/
inductive SolveRes where
  | err
  | failed
  | noSolution
  | solution (values : List (List Nat))
deriving DecidableEq, Repr

/-- Intermediate outcome of the factor/batch loops. -/
inductive LoopOut where
  | err
  | failed
  | noSolution
  | done (retMap : List (Arr × List Nat))
deriving DecidableEq, Repr

/-- `m[a] = v` where the key is known to be present in the running map. -/
def setElems (m : List (Arr × List Nat)) (a : Arr) (v : List Nat) :
    List (Arr × List Nat) :=
  m.map (fun p => if p.1 = a then (a, v) else p)

/-- Overwrite in `oldv` exactly the positions listed in `ds` with the bytes
of `newv` (the inner per-index copy loops of both merge routines). -/
def writeIndices (oldv newv : List Nat) (ds : List Nat) : List Nat :=
  ds.foldl (fun acc idx => acc.set idx (newv.getD idx 0)) oldv

/-- The merge step of `computeInitialValuesPerFactor`: a new array dumps its
whole byte vector; an array already present is overwritten only at the byte
indices this factor's element set records for it (`it->elements[arr]`, an
empty set when the factor references the array only whole-object).  The size
assertion models as `none`. -/
def mergeFactorValues (f : IES) (arrays : List Arr) (tempValues : List (List Nat))
    (retMap : List (Arr × List Nat)) : Option (List (Arr × List Nat)) :=
  (arrays.zip tempValues).foldlM
    (fun rm p =>
      match lookupElems rm p.1 with
      | some oldv =>
        if oldv.length = p.2.length then
          some (setElems rm p.1
            (writeIndices oldv p.2 ((lookupElems f.elements p.1).getD [])))
        else none
      | none => some (rm ++ [(p.1, p.2)]))
    retMap

/-- The factor loop of `computeInitialValuesPerFactor`: factors with no
referenced arrays are skipped; an inner failure aborts the call, an inner
no-solution ends it with no solution; otherwise the returned bytes are merged
into the running map. -/
def perFactorLoop (inner : InnerSolver) :
    List IES → List (Arr × List Nat) → LoopOut
  | [], retMap => .done retMap
  | f :: rest, retMap =>
    if f.exprs.length < 1 then .err
    else
      let arrays := calculateArrayReferences f
      if arrays.isEmpty then perFactorLoop inner rest retMap
      else
        match inner f.exprs arrays with
        | .fail => .failed
        | .unsat => .noSolution
        | .sat tempValues =>
          if tempValues.length = arrays.length then
            match mergeFactorValues f arrays tempValues retMap with
            | some rm => perFactorLoop inner rest rm
            | none => .err
          else .err

/-- The final assembly of `computeInitialValues*`: one byte vector per
requested array, from the merged map or all zeros for an unreferenced
array. -/
def assembleValues (objects : List Arr) (retMap : List (Arr × List Nat)) :
    List (List Nat) :=
  objects.map (fun arr =>
    match lookupElems retMap arr with
    | some v => v
    | none => List.replicate arr.size 0)

mutual
/-- Modelled from the spec: `Assignment::evaluate` of the missing
`Assignment.h` (spec section 4.7) — substitute every read with constant index
of a bound array by its byte value, rebuild everything else through the
folding constructors; with free values allowed, an unbound or out-of-range
read stays symbolic. -/
def aEval (b : List (Arr × List Nat)) (e : Expr) : Expr :=
  match e with
  | .const w v => .const w v
  | .notOptimized s => .notOptimized (aEval b s)
  | .read root ups idx => aEvalRead b root (aEvalU b ups) (aEval b idx)
  | .select c t f => mkSelect (aEval b c) (aEval b t) (aEval b f)
  | .concat hi lo => mkConcat (aEval b hi) (aEval b lo)
  | .extract s o w => mkExtract (aEval b s) o w
  | .zext s w => mkZExt (aEval b s) w
  | .sext s w => mkSExt (aEval b s) w
  | .not s => mkNot (aEval b s)
  | .binop op l r => mkBin op (aEval b l) (aEval b r)
  | .cmp op l r => mkCmp op (aEval b l) (aEval b r)

/-- The read case of the assignment evaluator: walk constant update indices
against a constant read index; at the end of the chain take the bound byte
when there is one. -/
def aEvalRead (b : List (Arr × List Nat)) (root : Arr) :
    UpdNodes → Expr → Expr
  | .nil, .const wi vi =>
    (match lookupElems b root with
     | some bytes =>
       if truncBits wi vi < bytes.length then
         .const root.range (truncBits root.range (bytes.getD (truncBits wi vi) 0))
       else .read root .nil (.const wi vi)
     | none => .read root .nil (.const wi vi))
  | .node (.const wu vu) uv next, .const wi vi =>
    if truncBits wu vu = truncBits wi vi then uv
    else aEvalRead b root next (.const wi vi)
  | ups, idx => .read root ups idx

/-- Evaluate the expressions of an update chain under the assignment. -/
def aEvalU (b : List (Arr × List Nat)) : UpdNodes → UpdNodes
  | .nil => .nil
  | .node i v next => .node (aEval b i) (aEval b v) (aEvalU b next)
end

/-- The assignment built by the model verifier: the objects' byte vectors,
overlaid (without overwriting, like `std::map::insert`) with the merged
map. -/
def verifierBindings (objects : List Arr) (values : List (List Nat))
    (retMap : List (Arr × List Nat)) : List (Arr × List Nat) :=
  let base := objects.zip values
  base ++ retMap.filter (fun p => ¬ base.any (fun o => o.1 = p.1))

/-- `assertCreatedPointEvaluatesToTrue` of `IndependentSolver.cpp`: a
constraint that evaluates to constant false makes the check fail; a
constraint that evaluates to a non-constant only emits a warning and is
skipped; the negated query must evaluate to a constant (the assert models as
`none`), and its truth is the verdict. -/
def assertCreatedPointEvaluatesToTrue (q : Query) (objects : List Arr)
    (values : List (List Nat)) (retMap : List (Arr × List Nat)) : Option Bool :=
  let bindings := verifierBindings objects values retMap
  if q.constraints.any (fun c => (aEval bindings c).isFalse) then some false
  else
    let negq := aEval bindings (createIsZero q.expr)
    if negq.isConst then some negq.isTrue else none

/-- `IndependentSolver::computeInitialValuesPerFactor`: split into factors,
run the factor loop, assemble the ordered output and verify it; the final
`assert(assertCreatedPointEvaluatesToTrue(..))` models as `err` when the
verifier does not return true. -/
def computeInitialValuesPerFactor (inner : InnerSolver) (q : Query)
    (objects : List Arr) : SolveRes :=
  match getAllIndependentConstraintsSets q with
  | none => .err
  | some factors =>
    match perFactorLoop inner factors [] with
    | .err => .err
    | .failed => .failed
    | .noSolution => .noSolution
    | .done retMap =>
      let values := assembleValues objects retMap
      match assertCreatedPointEvaluatesToTrue q objects values retMap with
      | some true => .solution values
      | _ => .err

/-- Stable insertion of a factor into a list ascending by expression count
(model of the stable `std::list::sort` in `computeInitialValuesBatch`). -/
def insertByExprCount (f : IES) : List IES → List IES
  | [] => [f]
  | g :: rest =>
    if g.exprs.length ≤ f.exprs.length then g :: insertByExprCount f rest
    else f :: g :: rest

/-- Sort factors ascending by expression count, stably. -/
def sortByExprCount (fs : List IES) : List IES :=
  fs.foldl (fun acc f => insertByExprCount f acc) []

/-- The greedy batching of `computeInitialValuesBatch`: before each factor,
if the accumulated expression count has reached the threshold a new batch
starts; the factor joins the current batch.  A trailing empty batch (only
possible when there are no factors) is dropped, as in the source. -/
def batchSplit (threshold : Nat) : List IES → List IES → Nat → List (List IES)
  | [], curPart, _ => if curPart.isEmpty then [] else [curPart]
  | f :: rest, curPart, acc =>
    if acc ≥ threshold then
      curPart :: batchSplit threshold rest [f] f.exprs.length
    else batchSplit threshold rest (curPart ++ [f]) (acc + f.exprs.length)

/-- The merge step of `computeInitialValuesBatch` for one returned array: an
array already present in the running map is overwritten only at the byte
indices that each individual constituent factor of the batch records for it;
a factor whose element map has no entry for the array is silently skipped
(the source comments out the assertion that would fire). -/
def mergeBatchValues (p : List IES) (arrays : List Arr)
    (tempValues : List (List Nat)) (retMap : List (Arr × List Nat)) :
    Option (List (Arr × List Nat)) :=
  (arrays.zip tempValues).foldlM
    (fun rm pr =>
      match lookupElems rm pr.1 with
      | some oldv =>
        if oldv.length = pr.2.length then
          some (setElems rm pr.1
            (p.foldl (fun v f =>
              match lookupElems f.elements pr.1 with
              | some ds => writeIndices v pr.2 ds
              | none => v) oldv))
        else none
      | none => some (rm ++ [(pr.1, pr.2)]))
    retMap

/-- The union of a batch's factors' constraint lists
(`computeInitialValuesBatch`). -/
def batchConstraints (p : List IES) : List Expr :=
  p.foldl (fun acc f => acc ++ f.exprs) ([] : List Expr)

/-- The per-batch array-reference accumulation of `computeInitialValuesBatch`,
including its per-factor asserts (a non-empty expression list and a non-empty
accumulated array set), which model as `none`. -/
def batchArrays (p : List IES) : Option (List Arr) :=
  p.foldl
    (fun (st : Option (List Arr)) f =>
      match st with
      | none => none
      | some acc =>
        let acc2 := acc ++ (calculateArrayReferences f).filter (fun a => ¬ acc.contains a)
        if 1 ≤ f.exprs.length ∧ 0 < acc2.length then some acc2 else none)
    (some [])

/-- The per-batch loop of `computeInitialValuesBatch`: each batch ships the
union of its factors' constraints and arrays; error semantics as in the
per-factor loop. -/
def batchLoop (inner : InnerSolver) :
    List (List IES) → List (Arr × List Nat) → LoopOut
  | [], retMap => .done retMap
  | p :: rest, retMap =>
    let constraints := batchConstraints p
    match batchArrays p with
    | none => .err
    | some arrays =>
      match inner constraints arrays with
      | .fail => .failed
      | .unsat => .noSolution
      | .sat tempValues =>
        if tempValues.length = arrays.length then
          match mergeBatchValues p arrays tempValues retMap with
          | some rm => batchLoop inner rest rm
          | none => .err
        else .err

/-- `IndependentSolver::computeInitialValuesBatch`: sort the factors by
expression count, pack them greedily into batches up to the threshold, run
the batches, assemble and verify. -/
def computeInitialValuesBatch (inner : InnerSolver) (threshold : Nat)
    (q : Query) (objects : List Arr) : SolveRes :=
  match getAllIndependentConstraintsSets q with
  | none => .err
  | some factors =>
    let parts := batchSplit threshold (sortByExprCount factors) [] 0
    match batchLoop inner parts [] with
    | .err => .err
    | .failed => .failed
    | .noSolution => .noSolution
    | .done retMap =>
      let values := assembleValues objects retMap
      match assertCreatedPointEvaluatesToTrue q objects values retMap with
      | some true => .solution values
      | _ => .err

end KleeER

namespace KleeER

/-- An assignment satisfies a constraint list when every constraint evaluates
to 1 (boolean true). -/
def satAll (A : Asgn) (C : List Expr) : Prop := ∀ e ∈ C, evalE A e = 1

/-- Semantic entailment: every assignment satisfying the constraints makes
the query expression true.  `solve` answers validity from this relation (and
its negated instance); the inner solver is external to the repository. -/
def entails (C : List Expr) (q : Expr) : Prop :=
  ∀ A : Asgn, satAll A C → evalE A q = 1

end KleeER

namespace KleeER

/-- Two assignments agree on every byte mentioned by a read list (concretely,
or anywhere in an array read symbolically). -/
def agreeOn (A B : Asgn) (L : List (Arr × Option Nat)) : Prop :=
  ∀ a i, ((a, some i) ∈ L ∨ (a, none) ∈ L) → A a i = B a i

theorem agreeOn_mono {A B : Asgn} {L1 L2 : List (Arr × Option Nat)}
    (hsub : ∀ p ∈ L1, p ∈ L2) (h : agreeOn A B L2) : agreeOn A B L1 := by
  intro a i hi
  exact h a i (hi.imp (fun m => hsub _ m) (fun m => hsub _ m))

mutual
/-- Agreement lemma: the value of an expression depends only on the bytes in
its read footprint. -/
theorem evalE_agree (A B : Asgn) (e : Expr) (h : agreeOn A B (readsOf e)) :
    evalE A e = evalE B e := by
  match e with
  | .const w v => rfl
  | .notOptimized s =>
    simp only [evalE]
    exact evalE_agree A B s h
  | .read root ups idx =>
    have hidx : agreeOn A B (readsOf idx) :=
      agreeOn_mono (fun p hp =>
        List.mem_cons_of_mem _ (List.mem_append_left _ hp)) h
    have hups : agreeOn A B (readsUpd ups) :=
      agreeOn_mono (fun p hp =>
        List.mem_cons_of_mem _ (List.mem_append_right _ hp)) h
    have hiv : evalE A idx = evalE B idx := evalE_agree A B idx hidx
    have hfb : A root (evalE B idx) = B root (evalE B idx) := by
      match idx with
      | .const w v =>
        exact h root (truncBits w v) (Or.inl (List.mem_cons_self _ _))
      | .notOptimized s => exact h root _ (Or.inr (List.mem_cons_self _ _))
      | .read r2 u2 i2 => exact h root _ (Or.inr (List.mem_cons_self _ _))
      | .select c t f => exact h root _ (Or.inr (List.mem_cons_self _ _))
      | .concat hi lo => exact h root _ (Or.inr (List.mem_cons_self _ _))
      | .extract s o w => exact h root _ (Or.inr (List.mem_cons_self _ _))
      | .zext s w => exact h root _ (Or.inr (List.mem_cons_self _ _))
      | .sext s w => exact h root _ (Or.inr (List.mem_cons_self _ _))
      | .not s => exact h root _ (Or.inr (List.mem_cons_self _ _))
      | .binop op l r => exact h root _ (Or.inr (List.mem_cons_self _ _))
      | .cmp op l r => exact h root _ (Or.inr (List.mem_cons_self _ _))
    simp only [evalE, hiv]
    exact evalUpd_agree A B root ups (evalE B idx) hups hfb
  | .select c t f =>
    have hc := evalE_agree A B c
      (agreeOn_mono (fun p hp => List.mem_append_left _ (List.mem_append_left _ hp)) h)
    have ht := evalE_agree A B t
      (agreeOn_mono (fun p hp => List.mem_append_left _ (List.mem_append_right _ hp)) h)
    have hf := evalE_agree A B f
      (agreeOn_mono (fun p hp => List.mem_append_right _ hp) h)
    simp only [evalE, hc, ht, hf]
  | .concat hi lo =>
    have h1 := evalE_agree A B hi
      (agreeOn_mono (fun p hp => List.mem_append_left _ hp) h)
    have h2 := evalE_agree A B lo
      (agreeOn_mono (fun p hp => List.mem_append_right _ hp) h)
    simp only [evalE, h1, h2]
  | .extract s o w =>
    have h1 := evalE_agree A B s h
    simp only [evalE, h1]
  | .zext s w =>
    have h1 := evalE_agree A B s h
    simp only [evalE, h1]
  | .sext s w =>
    have h1 := evalE_agree A B s h
    simp only [evalE, h1]
  | .not s =>
    have h1 := evalE_agree A B s h
    simp only [evalE, h1]
  | .binop op l r =>
    have h1 := evalE_agree A B l
      (agreeOn_mono (fun p hp => List.mem_append_left _ hp) h)
    have h2 := evalE_agree A B r
      (agreeOn_mono (fun p hp => List.mem_append_right _ hp) h)
    simp only [evalE, h1, h2]
  | .cmp op l r =>
    have h1 := evalE_agree A B l
      (agreeOn_mono (fun p hp => List.mem_append_left _ hp) h)
    have h2 := evalE_agree A B r
      (agreeOn_mono (fun p hp => List.mem_append_right _ hp) h)
    simp only [evalE, h1, h2]

/-- Agreement lemma for update chains, given agreement on the chain's own
reads and on the fallback byte. -/
theorem evalUpd_agree (A B : Asgn) (root : Arr) (ups : UpdNodes) (i : Nat)
    (h : agreeOn A B (readsUpd ups)) (hfb : A root i = B root i) :
    evalUpd A root ups i = evalUpd B root ups i := by
  match ups with
  | .nil => simp only [evalUpd, hfb]
  | .node uidx uval next =>
    have hx := evalE_agree A B uidx
      (agreeOn_mono (fun p hp => List.mem_append_left _ (List.mem_append_left _ hp)) h)
    have hv := evalE_agree A B uval
      (agreeOn_mono (fun p hp => List.mem_append_left _ (List.mem_append_right _ hp)) h)
    have hn := evalUpd_agree A B root next i
      (agreeOn_mono (fun p hp => List.mem_append_right _ hp) h) hfb
    simp only [evalUpd, hx, hv, hn]
end

end KleeER


namespace KleeER

/-- Coverage of one byte by the dense-set map alone. -/
def elemsCover (m : List (Arr × List Nat)) (a : Arr) (i : Nat) : Bool :=
  match lookupElems m a with
  | some xs => xs.contains i
  | none => false

/-- Coverage of one byte by a scan state of `iesOfExpr`. -/
def stCovers (st : List (Arr × List Nat) × List Arr) (a : Arr) (i : Nat) : Bool :=
  st.2.contains a || elemsCover st.1 a i

theorem lookupElems_cons (b : Arr) (xs : List Nat) (rest : List (Arr × List Nat))
    (a : Arr) :
    lookupElems ((b, xs) :: rest) a = if b = a then some xs else lookupElems rest a := by
  unfold lookupElems
  by_cases h : b = a
  · rw [List.find?_cons_of_pos _ (by simpa using h)]
    simp [h]
  · rw [List.find?_cons_of_neg _ (by simpa using h)]
    simp [h]

theorem elemsCover_cons (b : Arr) (xs : List Nat) (rest : List (Arr × List Nat))
    (a : Arr) (i : Nat) :
    elemsCover ((b, xs) :: rest) a i =
      if b = a then xs.contains i else elemsCover rest a i := by
  unfold elemsCover
  rw [lookupElems_cons]
  by_cases h : b = a <;> simp [h]

theorem insertElemIdx_cons (c : Arr) (xs : List Nat) (rest : List (Arr × List Nat))
    (a : Arr) (i : Nat) :
    insertElemIdx ((c, xs) :: rest) a i =
      if c = a then (c, if i ∈ xs then xs else xs ++ [i]) :: rest
      else (c, xs) :: insertElemIdx rest a i := rfl

theorem elemsCover_insert_self (m : List (Arr × List Nat)) (a : Arr) (i : Nat) :
    elemsCover (insertElemIdx m a i) a i = true := by
  induction m with
  | nil =>
    simp [insertElemIdx, elemsCover_cons]
  | cons p rest ih =>
    obtain ⟨b, xs⟩ := p
    rw [insertElemIdx_cons]
    by_cases hb : b = a
    · rw [if_pos hb, elemsCover_cons, if_pos hb]
      by_cases hi : i ∈ xs <;> simp [hi, List.elem_iff]
    · rw [if_neg hb, elemsCover_cons, if_neg hb]
      exact ih

theorem elemsCover_insert_mono (m : List (Arr × List Nat)) (a b : Arr) (i j : Nat)
    (h : elemsCover m b j = true) :
    elemsCover (insertElemIdx m a i) b j = true := by
  induction m with
  | nil => simp [elemsCover, lookupElems] at h
  | cons p rest ih =>
    obtain ⟨c, xs⟩ := p
    rw [insertElemIdx_cons]
    by_cases hc : c = a
    · rw [if_pos hc]
      by_cases hcb : c = b
      · rw [elemsCover_cons, if_pos hcb] at h
        rw [elemsCover_cons, if_pos hcb]
        by_cases hi : i ∈ xs
        · simpa [hi] using h
        · rw [if_neg hi]
          simp only [List.elem_iff, List.mem_append] at h ⊢
          exact Or.inl h
      · rw [elemsCover_cons, if_neg hcb] at h
        rw [elemsCover_cons, if_neg hcb]
        exact h
    · rw [if_neg hc]
      by_cases hcb : c = b
      · rw [elemsCover_cons, if_pos hcb] at h
        rw [elemsCover_cons, if_pos hcb]
        exact h
      · rw [elemsCover_cons, if_neg hcb] at h
        rw [elemsCover_cons, if_neg hcb]
        exact ih h

theorem elemsCover_remove_ne (m : List (Arr × List Nat)) (a b : Arr) (j : Nat)
    (hne : b ≠ a) : elemsCover (removeElems m a) b j = elemsCover m b j := by
  induction m with
  | nil => simp [removeElems]
  | cons p rest ih =>
    obtain ⟨c, xs⟩ := p
    by_cases hc : c = a
    · subst hc
      have hcb : c ≠ b := fun h => hne h.symm
      rw [elemsCover_cons, if_neg hcb]
      simpa [removeElems] using ih
    · by_cases hcb : c = b
      · subst hcb
        rw [elemsCover_cons, if_pos rfl]
        simp only [removeElems, List.filter_cons]
        rw [if_pos (by simpa using hc)]
        rw [elemsCover_cons, if_pos rfl]
      · rw [elemsCover_cons, if_neg hcb]
        simp only [removeElems, List.filter_cons]
        rw [if_pos (by simpa using hc)]
        rw [elemsCover_cons, if_neg hcb]
        simpa [removeElems] using ih

theorem stCovers_step_mono (st : List (Arr × List Nat) × List Arr)
    (r : Arr × Option Nat) (a : Arr) (i : Nat) (h : stCovers st a i = true) :
    stCovers (iesStep st r) a i = true := by
  obtain ⟨b, oj⟩ := r
  rcases Bool.or_eq_true_iff.mp h with hw | he
  · match oj with
    | some j =>
      simp only [iesStep]
      by_cases hb : b ∈ st.2
      · simp only [List.elem_iff, if_pos hb]
        exact h
      · simp only [List.elem_iff, if_neg hb]
        exact Bool.or_eq_true_iff.mpr (Or.inl hw)
    | none =>
      simp only [iesStep]
      apply Bool.or_eq_true_iff.mpr (Or.inl ?_)
      have hw2 : a ∈ st.2 := List.elem_iff.mp hw
      by_cases hb : b ∈ st.2
      · simp only [List.elem_iff, if_pos hb]
        exact hw2
      · simp only [List.elem_iff, if_neg hb]
        exact List.mem_append_left _ hw2
  · match oj with
    | some j =>
      simp only [iesStep]
      by_cases hb : b ∈ st.2
      · simp only [List.elem_iff, if_pos hb]
        exact h
      · simp only [List.elem_iff, if_neg hb]
        exact Bool.or_eq_true_iff.mpr
          (Or.inr (elemsCover_insert_mono _ _ _ _ _ he))
    | none =>
      simp only [iesStep]
      by_cases hab : a = b
      · subst hab
        apply Bool.or_eq_true_iff.mpr (Or.inl ?_)
        by_cases hb : a ∈ st.2 <;>
          simp [List.elem_iff, hb]
      · apply Bool.or_eq_true_iff.mpr (Or.inr ?_)
        rw [elemsCover_remove_ne _ _ _ _ hab]
        exact he

theorem stCovers_step_self_some (st : List (Arr × List Nat) × List Arr)
    (a : Arr) (i : Nat) : stCovers (iesStep st (a, some i)) a i = true := by
  simp only [iesStep]
  by_cases hw : a ∈ st.2
  · simp [stCovers, List.elem_iff, hw]
  · simp only [List.elem_iff, if_neg hw]
    exact Bool.or_eq_true_iff.mpr (Or.inr (elemsCover_insert_self _ _ _))

theorem stCovers_step_self_none (st : List (Arr × List Nat) × List Arr)
    (a : Arr) (i : Nat) : stCovers (iesStep st (a, none)) a i = true := by
  simp only [iesStep]
  apply Bool.or_eq_true_iff.mpr (Or.inl ?_)
  by_cases hw : a ∈ st.2 <;> simp [List.elem_iff, hw]

theorem stCovers_fold (L : List (Arr × Option Nat)) :
    ∀ (st : List (Arr × List Nat) × List Arr) (a : Arr) (i : Nat),
    (stCovers st a i = true ∨ (a, some i) ∈ L ∨ (a, none) ∈ L) →
    stCovers (L.foldl iesStep st) a i = true := by
  induction L with
  | nil => intro st a i h; simpa using h.resolve_right (by simp)
  | cons r L ih =>
    intro st a i h
    simp only [List.foldl_cons]
    rcases h with hst | hm | hm
    · exact ih _ a i (Or.inl (stCovers_step_mono st r a i hst))
    · rcases List.mem_cons.mp hm with heq | hm2
      · subst heq
        exact ih _ a i (Or.inl (stCovers_step_self_some st a i))
      · exact ih _ a i (Or.inr (Or.inl hm2))
    · rcases List.mem_cons.mp hm with heq | hm2
      · subst heq
        exact ih _ a i (Or.inl (stCovers_step_self_none st a i))
      · exact ih _ a i (Or.inr (Or.inr hm2))

/-- The element set of an expression covers everything the expression
touches. -/
theorem touches_covers (e : Expr) (a : Arr) (i : Nat) (h : touches e a i) :
    (iesOfExpr e).covers a i = true := by
  have := stCovers_fold (readsOf e) ([], []) a i (Or.inr h)
  simpa [iesOfExpr, IES.covers, stCovers, elemsCover] using this

theorem covers_cases {s : IES} {a : Arr} {i : Nat} (h : s.covers a i = true) :
    a ∈ s.wholeObjects ∨ ∃ xs, lookupElems s.elements a = some xs ∧ i ∈ xs := by
  unfold IES.covers at h
  rcases Bool.or_eq_true_iff.mp h with hw | he
  · exact Or.inl (by simpa [List.elem_iff] using hw)
  · cases hle : lookupElems s.elements a with
    | none => rw [hle] at he; simp at he
    | some xs =>
      rw [hle] at he
      exact Or.inr ⟨xs, rfl, by simpa [List.elem_iff] using he⟩

theorem lookupElems_mem {m : List (Arr × List Nat)} {a : Arr} {xs : List Nat}
    (h : lookupElems m a = some xs) : (a, xs) ∈ m := by
  unfold lookupElems at h
  cases hf : m.find? (fun p => p.1 = a) with
  | none => rw [hf] at h; simp at h
  | some p =>
    rw [hf] at h
    have hp : p ∈ m := List.mem_of_find?_eq_some hf
    have hpa : p.1 = a := by simpa using List.find?_some hf
    have hxs : p.2 = xs := by simpa using h
    have hpe : p = (a, xs) := by
      obtain ⟨p1, p2⟩ := p
      simp only at hpa hxs
      rw [hpa, hxs]
    rwa [hpe] at hp

/-- Two element sets covering a common byte intersect. -/
theorem covers_intersects (x y : IES) (a : Arr) (i : Nat)
    (hx : x.covers a i = true) (hy : y.covers a i = true) :
    x.intersects y = true := by
  rcases covers_cases hx with hxw | ⟨xs, hxl, hxi⟩ <;>
    rcases covers_cases hy with hyw | ⟨ys, hyl, hyi⟩
  · simp only [IES.intersects, Bool.or_eq_true_iff, List.any_eq_true]
    exact Or.inl (Or.inl ⟨a, hxw, by simp [List.elem_iff, hyw]⟩)
  · simp only [IES.intersects, Bool.or_eq_true_iff, List.any_eq_true]
    exact Or.inl (Or.inl ⟨a, hxw, by simp [hyl]⟩)
  · simp only [IES.intersects, Bool.or_eq_true_iff, List.any_eq_true]
    exact Or.inl (Or.inr ⟨a, hyw, by simp [hxl]⟩)
  · simp only [IES.intersects, Bool.or_eq_true_iff, List.any_eq_true]
    refine Or.inr ⟨(a, xs), lookupElems_mem hxl, ?_⟩
    simp only [hyl, List.any_eq_true]
    exact ⟨i, hxi, by simp [List.elem_iff, hyi]⟩

end KleeER

namespace KleeER

theorem mem_selected_fold (cl : IES) (fs : List IES) (acc : List Expr) (e : Expr) :
    e ∈ fs.foldl (fun acc f => if cl.intersects f then acc ++ f.exprs else acc) acc ↔
    e ∈ acc ∨ ∃ f, f ∈ fs ∧ cl.intersects f = true ∧ e ∈ f.exprs := by
  induction fs generalizing acc with
  | nil => simp
  | cons f fs ih =>
    simp only [List.foldl_cons]
    by_cases hf : cl.intersects f
    · rw [if_pos hf, ih]
      simp only [List.mem_append, List.mem_cons]
      constructor
      · rintro ((he | he) | ⟨g, hg, hint, hme⟩)
        · exact Or.inl he
        · exact Or.inr ⟨f, Or.inl rfl, hf, he⟩
        · exact Or.inr ⟨g, Or.inr hg, hint, hme⟩
      · rintro (he | ⟨g, (rfl | hg), hint, hme⟩)
        · exact Or.inl (Or.inl he)
        · exact Or.inl (Or.inr hme)
        · exact Or.inr ⟨g, hg, hint, hme⟩
    · rw [if_neg hf, ih]
      simp only [List.mem_cons]
      constructor
      · rintro (he | ⟨g, hg, hint, hme⟩)
        · exact Or.inl he
        · exact Or.inr ⟨g, Or.inr hg, hint, hme⟩
      · rintro (he | ⟨g, (rfl | hg), hint, hme⟩)
        · exact Or.inl he
        · exact absurd hint (by simpa using hf)
        · exact Or.inr ⟨g, hg, hint, hme⟩

theorem mem_selected (q : Query) (e : Expr) :
    e ∈ (getIndependentConstraints q).2 ↔
    ∃ f, f ∈ q.cm.factors ∧ (iesOfExpr q.expr).intersects f = true ∧ e ∈ f.exprs := by
  have := mem_selected_fold (iesOfExpr q.expr) q.cm.factors [] e
  simpa [getIndependentConstraints] using this

/-- C2 (amended): independent-query soundness — when every top-level
constraint is recorded in a factor whose element set covers its footprint,
factors are pairwise equal-or-disjoint, factor expressions are constraints,
and the full constraint set is satisfiable, then the constraints selected by
`getIndependentConstraints` entail the query expression exactly when the full
set does (so validity, truth and value queries answered over the selection
agree with the full set). -/
theorem independent_filter_sound (q : Query) (A0 : Asgn)
    (hcov : ∀ e ∈ q.cm.constraints, ∃ f, f ∈ q.cm.factors ∧ e ∈ f.exprs)
    (hrev : ∀ f ∈ q.cm.factors, ∀ e ∈ f.exprs, e ∈ q.cm.constraints)
    (hfp : ∀ f ∈ q.cm.factors, ∀ e ∈ f.exprs, ∀ a i,
      touches e a i → f.covers a i = true)
    (hdisj : ∀ f ∈ q.cm.factors, ∀ g ∈ q.cm.factors,
      f = g ∨ ∀ a i, ¬(f.covers a i = true ∧ g.covers a i = true))
    (hsat : satAll A0 q.cm.constraints) :
    entails q.cm.constraints q.expr ↔
    entails (getIndependentConstraints q).2 q.expr := by
  classical
  constructor
  · intro hC A hA
    set cl : IES := iesOfExpr q.expr with hcl
    set D : Arr → Nat → Prop := fun a i =>
      cl.covers a i = true ∨
      ∃ f, f ∈ q.cm.factors ∧ cl.intersects f = true ∧ f.covers a i = true
      with hD
    set AS : Asgn := fun a i => if D a i then A a i else A0 a i with hAS
    have agreeA : ∀ e : Expr, (∀ a i, touches e a i → D a i) →
        evalE AS e = evalE A e := by
      intro e hall
      apply evalE_agree
      intro a i hm
      have : D a i := hall a i hm
      simp only [hAS, if_pos this]
    have agreeA0 : ∀ e : Expr, (∀ a i, touches e a i → ¬ D a i) →
        evalE AS e = evalE A0 e := by
      intro e hall
      apply evalE_agree
      intro a i hm
      have : ¬ D a i := hall a i hm
      simp only [hAS, if_neg this]
    have hASsat : satAll AS q.cm.constraints := by
      intro e he
      obtain ⟨f, hfm, hef⟩ := hcov e he
      by_cases hint : cl.intersects f = true
      · have heC2 : e ∈ (getIndependentConstraints q).2 :=
          (mem_selected q e).mpr ⟨f, hfm, hint, hef⟩
        have : evalE AS e = evalE A e :=
          agreeA e (fun a i ht => Or.inr ⟨f, hfm, hint, hfp f hfm e hef a i ht⟩)
        rw [this]
        exact hA e heC2
      · have : evalE AS e = evalE A0 e := by
          apply agreeA0 e
          intro a i ht hDai
          have hcovf : f.covers a i = true := hfp f hfm e hef a i ht
          rcases hDai with hclc | ⟨g, hgm, hgint, hgc⟩
          · exact hint (covers_intersects cl f a i hclc hcovf)
          · rcases hdisj f hfm g hgm with rfl | hdis
            · exact hint hgint
            · exact hdis a i ⟨hcovf, hgc⟩
        rw [this]
        exact hsat e he
    have hq : evalE AS q.expr = evalE A q.expr :=
      agreeA q.expr (fun a i ht => Or.inl (touches_covers q.expr a i ht))
    have := hC AS hASsat
    rwa [hq] at this
  · intro hC2 A hA
    apply hC2
    intro e he
    obtain ⟨f, hfm, _, hef⟩ := (mem_selected q e).mp he
    exact hA e (hrev f hfm e hef)

end KleeER

namespace KleeER

/-- A concrete 4-byte symbolic array named "a". -/
def arrA : Arr := { name := "a", size := 4 }

/-- A concrete 4-byte symbolic array named "b". -/
def arrB : Arr := { name := "b", size := 4 }

/-- A concrete 4-byte symbolic array named "c". -/
def arrC : Arr := { name := "c", size := 4 }

/-- A one-byte read of an array at a concrete 32-bit index (no updates). -/
def rdOf (a : Arr) (i : Nat) : Expr := .read a .nil (.const 32 i)

/-- Default configuration: rewrite-equalities on, independent solver on. -/
def cfgOn : Cfg := { rewriteEqualities := true, useIndependentSolver := true }

/-- Configuration with rewrite-equalities disabled, independent solver on. -/
def cfgNoRw : Cfg := { rewriteEqualities := false, useIndependentSolver := true }

/-- First constraint of the partition-violation run: Ult(Read(a,0), Read(b,0)). -/
def c1first : Expr := .cmp .ult (rdOf arrA 0) (rdOf arrB 0)

/-- The constraint that loses its factor: Ule(Read(b,0), Read(c,0)). -/
def c1plain : Expr := .cmp .ule (rdOf arrB 0) (rdOf arrC 0)

/-- Second added expression: And(Ule(Read(b,0), Read(c,0)), Eq(5, Read(a,0))).
Its left operand is pushed before the equality triggers a rewrite, so the
`old` snapshot taken by `rewriteConstraints` already contains it and
`checkConstraintChange` never reports it as added. -/
def c1second : Expr :=
  .binop .and c1plain (.cmp .eq (.const 8 5) (rdOf arrA 0))

/-- The manager state after the two successful calls. -/
def c1state : CM := (addSeq cfgOn 20 CM.empty [c1first, c1second]).getD CM.empty

/-- C1: the claimed invariant — after any sequence of successful
`add_constraint` calls every top-level constraint is recorded in exactly one
factor — fails on the code: after adding `Ult(Read(a,0),Read(b,0))` and then
`And(Ule(Read(b,0),Read(c,0)), Eq(5,Read(a,0)))` (both calls successful),
the constraint `Ule(Read(b,0),Read(c,0))` is in the constraint sequence but
in no factor and has no representative entry. -/
theorem c1_partition_violation :
    (addSeq cfgOn 20 CM.empty [c1first, c1second]).isSome = true ∧
    c1plain ∈ c1state.constraints ∧
    (∀ f ∈ c1state.factors, c1plain ∉ f.exprs) ∧
    lookupRep c1state.representative c1plain = none := by decide

/-- The query of the dropped-query-factor run: expression
Eq(0, Read(a,0)) over an empty constraint manager. -/
def c4query : Query :=
  { cm := CM.empty, constraints := [], expr := .cmp .eq (.const 8 0) (rdOf arrA 0) }

/-- C4: the claim says the negated query is prepended as its own "query
factor" and submitted to the inner solver; the code instead drops `current`
(the query factor) when building the factor list, so for the non-constant
query Eq(0, Read(a,0)) over no constraints the factor list is empty, no
sub-query is ever submitted (any inner solver gives the same run), the model
is all zeros, and the code's own model-verifier assertion fails. -/
theorem c4_query_factor_dropped :
    getAllIndependentConstraintsSets c4query = some [] ∧
    ∀ inner : InnerSolver,
      computeInitialValuesPerFactor inner c4query [arrA] = .err := by
  constructor
  · decide
  · intro inner
    rfl

/-- The expression added twice in the idempotence counterexample:
And(Eq(0, Read(a,0)), Ult(Read(a,0), Read(a,1))). -/
def c9expr : Expr :=
  .binop .and (.cmp .eq (.const 8 0) (rdOf arrA 0))
    (.cmp .ult (rdOf arrA 0) (rdOf arrA 1))

/-- The manager state after the first successful addition of `c9expr`. -/
def c9once : CM := (addSeq cfgOn 20 CM.empty [c9expr]).getD CM.empty

/-- C9 counterexample: adding the same expression twice is not idempotent.
After `add_constraint(And(Eq(0,Read(a,0)), Ult(Read(a,0),Read(a,1))))`
succeeds, a second identical call returns true but records the additional
substituted constraint Ult(0, Read(a,1)): the conjunction itself was never
recorded, so the duplicate check misses, and the equalities map rewrites the
operands into a residual not yet recorded. -/
theorem c9_not_idempotent :
    (addSeq cfgOn 20 CM.empty [c9expr]).isSome = true ∧
    ((addConstraint cfgOn 20 c9once c9expr).getD (CM.empty, false)).2 = true ∧
    ((addConstraint cfgOn 20 c9once c9expr).getD (CM.empty, false)).1.constraints ≠
      c9once.constraints := by decide

/-- C9: the amended claim — re-adding an expression that is itself recorded
as a top-level constraint (the duplicate check hits) returns true and leaves
the manager unchanged; an expression that was split or canonicalized on first
insertion may instead be re-simplified and extend the manager. -/
theorem c9_duplicate_skipped (cfg : Cfg) (fuel : Nat) (cm : CM) (e : Expr)
    (h : (lookupRep cm.representative e).isSome = true) :
    addConstraint cfg fuel cm e = some (cm, true) := by
  unfold addConstraint
  rw [if_pos h]

/-- Witness for the C9 amended claim at the recorded constraint
Eq(0, Read(a,0)) of the concrete state. -/
theorem c9_duplicate_skipped_witness :
    addConstraint cfgOn 20 c9once (.cmp .eq (.const 8 0) (rdOf arrA 0)) =
      some (c9once, true) :=
  c9_duplicate_skipped cfgOn 20 c9once _ (by decide)

/-- C10: when the query expression is a constant other than false, the
factor collection hits its assertion (modelled as `none`); under the
precondition that the query expression is non-constant or the false constant
the collection always succeeds, so the assertion branch is unreachable. -/
theorem c10_constant_query_assert (q : Query) :
    (∀ w v, q.expr = .const w v → (Expr.const w v).isFalse = false →
      getAllIndependentConstraintsSets q = none) ∧
    (q.expr.isConst = false ∨ q.expr.isFalse = true →
      (getAllIndependentConstraintsSets q).isSome = true) := by
  constructor
  · intro w v hq hfalse
    unfold getAllIndependentConstraintsSets
    rw [hq]
    simp [hfalse]
  · intro hpre
    unfold getAllIndependentConstraintsSets
    match hq : q.expr with
    | .const w v =>
      rcases hpre with hc | hf
      · rw [hq] at hc; simp [Expr.isConst] at hc
      · rw [hq] at hf
        simp [hf]
    | .notOptimized s => simp
    | .read r u i => simp
    | .select c t f => simp
    | .concat hi lo => simp
    | .extract s o w => simp
    | .zext s w => simp
    | .sext s w => simp
    | .not s => simp
    | .binop op l r => simp
    | .cmp op l r => simp

/-- Witness for C10: the true-constant query trips the assertion, the
false-constant query does not. -/
theorem c10_constant_query_assert_witness :
    getAllIndependentConstraintsSets
      { cm := CM.empty, constraints := [], expr := trueExpr } = none ∧
    (getAllIndependentConstraintsSets
      { cm := CM.empty, constraints := [], expr := falseExpr }).isSome = true :=
  ⟨(c10_constant_query_assert _).1 1 1 rfl (by decide),
   (c10_constant_query_assert _).2 (Or.inr (by decide))⟩

end KleeER

namespace KleeER

theorem isTrue_shape {e : Expr} (h : e.isTrue = true) :
    ∃ v, e = .const 1 v ∧ v ≠ 0 := by
  match e with
  | .const w v =>
    simp only [Expr.isTrue, Bool.and_eq_true, decide_eq_true_eq] at h
    exact ⟨v, by rw [h.1], by simpa using h.2⟩
  | .notOptimized s => simp [Expr.isTrue] at h
  | .read r u i => simp [Expr.isTrue] at h
  | .select c t f => simp [Expr.isTrue] at h
  | .concat hi lo => simp [Expr.isTrue] at h
  | .extract s o w => simp [Expr.isTrue] at h
  | .zext s w => simp [Expr.isTrue] at h
  | .sext s w => simp [Expr.isTrue] at h
  | .not s => simp [Expr.isTrue] at h
  | .binop op l r => simp [Expr.isTrue] at h
  | .cmp op l r => simp [Expr.isTrue] at h

theorem isTrue_not_isFalse {e : Expr} (h : e.isTrue = true) :
    e.isFalse = false := by
  obtain ⟨v, rfl, hv⟩ := isTrue_shape h
  simpa [Expr.isFalse] using hv

/-- C3: the amended claim — for an expression that is not already recorded
(the duplicate check misses), a constant-false simplification makes
`add_constraint` return false with the manager unchanged, and a constant-true
simplification is a no-op returning true.  (A recorded duplicate returns true
before the simplification is even computed.) -/
theorem c3_simplified_constant (cfg : Cfg) (fuel : Nat) (cm : CM) (e : Expr)
    (hdup : lookupRep cm.representative e = none)
    (hdups : lookupRep cm.representative (cm.simplify e) = none)
    (hold : cm.old = []) (hadd : cm.addedConstraints = [])
    (hdel : cm.deleteConstraints = []) :
    ((cm.simplify e).isFalse = true →
      addConstraint cfg (fuel + 1) cm e = some (cm, false)) ∧
    ((cm.simplify e).isTrue = true →
      addConstraint cfg (fuel + 1) cm e = some (cm, true)) := by
  obtain ⟨cs, co, ca, cd, ceq, crep, cf⟩ := cm
  simp only at hold hadd hdel
  subst hold; subst hadd; subst hdel
  constructor
  · intro hf
    unfold addConstraint
    rw [if_neg (by simp [hdup]), if_neg (by simp), if_pos hf]
  · intro ht
    obtain ⟨v, hv, hvne⟩ := isTrue_shape ht
    unfold addConstraint
    rw [if_neg (by simp [hdup]), if_neg (by simp),
      if_neg (by simp [isTrue_not_isFalse ht])]
    rw [hv] at hdups ht ⊢
    simp only [addConstraintInternal, hdups, Option.isSome_none,
      Bool.false_eq_true, if_false, ht, if_true]
    simp [updateEqualities, updateIndependentSetF, Option.bind]

/-- The constraint that later becomes a stale duplicate:
Ult(Read(a,0), Read(a,1)). -/
def c3dup : Expr := .cmp .ult (rdOf arrA 0) (rdOf arrA 1)

/-- Manager state (rewrite-equalities off) after adding
Ult(Read(a,0),Read(a,1)), Eq(2,Read(a,1)) and Eq(5,Read(a,0)): the equalities
map now sends the first constraint to Ult(5,2), the false constant. -/
def c3state : CM :=
  (addSeq cfgNoRw 20 CM.empty
    [c3dup, .cmp .eq (.const 8 2) (rdOf arrA 1),
     .cmp .eq (.const 8 5) (rdOf arrA 0)]).getD CM.empty

/-- C3 counterexample: an expression whose simplification under the current
equalities map is the constant false for which `add_constraint` nevertheless
returns true — the duplicate check on the recorded constraint fires before
simplification. -/
theorem c3_duplicate_bypasses_simplification :
    (addSeq cfgNoRw 20 CM.empty
      [c3dup, .cmp .eq (.const 8 2) (rdOf arrA 1),
       .cmp .eq (.const 8 5) (rdOf arrA 0)]).isSome = true ∧
    (c3state.simplify c3dup).isFalse = true ∧
    addConstraint cfgNoRw 20 c3state c3dup = some (c3state, true) := by decide

/-- Witness for the C3 amended claim: at the concrete state, the fresh
expression Ult(Read(a,1), 0) simplifies to constant false and is rejected
with the manager unchanged; on an empty manager the constant-true expression
is accepted as a no-op. -/
theorem c3_simplified_constant_witness :
    addConstraint cfgNoRw 21 c3state (.cmp .ult (rdOf arrA 1) (.const 8 0)) =
      some (c3state, false) ∧
    addConstraint cfgNoRw 21 CM.empty trueExpr = some (CM.empty, true) :=
  ⟨(c3_simplified_constant cfgNoRw 20 c3state _ (by decide) (by decide)
      (by decide) (by decide) (by decide)).1 (by decide),
   (c3_simplified_constant cfgNoRw 20 CM.empty trueExpr (by decide) (by decide)
      (by decide) (by decide) (by decide)).2 (by decide)⟩

/-- C5: the amended claim — when the model verifier returns true, no source
constraint evaluated to constant false under the merged assignment and the
negated query evaluated to constant true; a constraint that evaluates to
constant false forces the verdict false (so the caller's assertion aborts);
but a constraint that evaluates to a non-constant residual only produces a
warning and is skipped — it does not by itself fail the check. -/
theorem c5_verifier_contract (q : Query) (objects : List Arr)
    (values : List (List Nat)) (retMap : List (Arr × List Nat)) (b : Bool)
    (h : assertCreatedPointEvaluatesToTrue q objects values retMap = some b) :
    (b = true →
      (∀ c ∈ q.constraints,
        (aEval (verifierBindings objects values retMap) c).isFalse = false) ∧
      (aEval (verifierBindings objects values retMap)
        (createIsZero q.expr)).isTrue = true) ∧
    ((∃ c ∈ q.constraints,
        (aEval (verifierBindings objects values retMap) c).isFalse = true) →
      b = false) := by
  unfold assertCreatedPointEvaluatesToTrue at h
  by_cases hany : q.constraints.any
      (fun c => (aEval (verifierBindings objects values retMap) c).isFalse) = true
  · rw [if_pos hany] at h
    have hb : b = false := (Option.some.inj h).symm
    subst hb
    exact ⟨fun hcontra => by simp at hcontra, fun _ => rfl⟩
  · rw [if_neg hany] at h
    have hnone : ∀ c ∈ q.constraints,
        (aEval (verifierBindings objects values retMap) c).isFalse = false := by
      intro c hc
      by_contra hne
      exact hany (List.any_eq_true.mpr ⟨c, hc, by simpa using hne⟩)
    by_cases hconst : (aEval (verifierBindings objects values retMap)
        (createIsZero q.expr)).isConst = true
    · rw [if_pos hconst] at h
      have hb := Option.some.inj h
      constructor
      · intro hbt
        exact ⟨hnone, by rw [hb, hbt]⟩
      · intro ⟨c, hc, hf⟩
        exact absurd hf (by simp [hnone c hc])
    · rw [if_neg hconst] at h
      exact absurd h (by simp)

/-- The verifier query of the C5 counterexample: one constraint over the
unbound array b, query expression over the bound array a. -/
def c5query : Query :=
  { cm := CM.empty, constraints := [.cmp .ult (rdOf arrB 0) (.const 8 5)],
    expr := .cmp .eq (.const 8 1) (rdOf arrA 0) }

/-- C5 counterexample: a constraint that evaluates to a non-constant residual
under the merged assignment (its array is not bound at all) does not fail
loudly — the verifier still returns true and `get_initial_values` returns the
model to the caller. -/
theorem c5_nonconstant_only_warns :
    assertCreatedPointEvaluatesToTrue c5query [arrA] [[0, 0, 0, 0]] [] =
      some true ∧
    (aEval (verifierBindings [arrA] [[0, 0, 0, 0]] [])
      (.cmp .ult (rdOf arrB 0) (.const 8 5))).isConst = false := by decide

/-- The verifier query of the C5 witness: constraint and query both over the
bound array a. -/
def c5goodQuery : Query :=
  { cm := CM.empty, constraints := [.cmp .ult (rdOf arrA 0) (.const 8 5)],
    expr := .cmp .eq (.const 8 1) (rdOf arrA 0) }

/-- Witness for the C5 amended claim at a concrete successful verification. -/
theorem c5_verifier_contract_witness :
    (∀ c ∈ c5goodQuery.constraints,
      (aEval (verifierBindings [arrA] [[0, 0, 0, 0]] []) c).isFalse = false) ∧
    (aEval (verifierBindings [arrA] [[0, 0, 0, 0]] [])
      (createIsZero c5goodQuery.expr)).isTrue = true :=
  (c5_verifier_contract c5goodQuery [arrA] [[0, 0, 0, 0]] [] true
    (by decide)).1 rfl


/-- The byte stored for one array index in a running per-array map. -/
def byteAt (m : List (Arr × List Nat)) (a : Arr) (idx : Nat) : Option Nat :=
  (lookupElems m a).map (fun v => v.getD idx 0)

theorem writeIndices_getD_not_mem (oldv newv : List Nat) (ds : List Nat)
    (idx : Nat) (h : idx ∉ ds) :
    (writeIndices oldv newv ds).getD idx 0 = oldv.getD idx 0 := by
  induction ds generalizing oldv with
  | nil => rfl
  | cons j ds ih =>
    have hne : j ≠ idx := fun he => h (he ▸ List.mem_cons_self _ _)
    have hns : idx ∉ ds := fun hm => h (List.mem_cons_of_mem _ hm)
    show (writeIndices (oldv.set j (newv.getD j 0)) newv ds).getD idx 0 = _
    rw [ih _ hns, List.getD_eq_getElem?_getD, List.getElem?_set_ne hne,
      ← List.getD_eq_getElem?_getD]

theorem lookupElems_setElems (m : List (Arr × List Nat)) (a : Arr)
    (v : List Nat) (b : Arr) :
    lookupElems (setElems m a v) b =
      if a = b then (lookupElems m b).map (fun _ => v) else lookupElems m b := by
  induction m with
  | nil =>
    by_cases hab : a = b <;> simp [setElems, lookupElems, hab]
  | cons p rest ih =>
    obtain ⟨c, xs⟩ := p
    have hmap : setElems ((c, xs) :: rest) a v
        = (if c = a then (a, v) else (c, xs)) :: setElems rest a v := rfl
    rw [hmap]
    by_cases hca : c = a
    · subst hca
      have hhead : (if c = c then (c, v) else (c, xs)) = (c, v) := if_pos rfl
      rw [hhead]
      by_cases hcb : c = b <;>
        simp [lookupElems_cons, hcb, ih]
    · have hhead : (if c = a then (a, v) else (c, xs)) = (c, xs) := if_neg hca
      rw [hhead]
      by_cases hcb : c = b
      · subst hcb
        have hab : ¬ a = c := fun he => hca he.symm
        simp [lookupElems_cons, hab, ih]
      · simp only [lookupElems_cons, ih, if_neg hcb]

theorem lookupElems_append_of_isSome (m l : List (Arr × List Nat)) (a : Arr)
    (h : (lookupElems m a).isSome = true) :
    lookupElems (m ++ l) a = lookupElems m a := by
  unfold lookupElems at h ⊢
  rw [List.find?_append]
  cases hf : m.find? (fun p => p.1 = a) with
  | none => rw [hf] at h; simp at h
  | some p => simp [hf]

theorem writeChain_getD_not_mem (p : List IES) (arr : Arr) (newv : List Nat)
    (idx : Nat) (hout : ∀ f ∈ p, idx ∉ (lookupElems f.elements arr).getD []) :
    ∀ v : List Nat,
      (p.foldl (fun v f =>
        match lookupElems f.elements arr with
        | some ds => writeIndices v newv ds
        | none => v) v).getD idx 0 = v.getD idx 0 := by
  induction p with
  | nil => intro v; rfl
  | cons f p ih =>
    intro v
    simp only [List.foldl_cons]
    have hf := hout f (List.mem_cons_self _ _)
    have hrest : ∀ g ∈ p, idx ∉ (lookupElems g.elements arr).getD [] :=
      fun g hg => hout g (List.mem_cons_of_mem _ hg)
    cases hds : lookupElems f.elements arr with
    | none => simp only [hds]; exact ih hrest v
    | some ds =>
      simp only [hds]
      rw [ih hrest]
      exact writeIndices_getD_not_mem v newv ds idx (by simpa [hds] using hf)

/-- C8: batched merging never writes across factors — when a batch's byte
vector is merged for an array that is already present in the running map,
only the byte indices recorded for that array by the individual constituent
factors of the batch can change, and a constituent factor with no
concrete-index entry for the array (including whole-object references)
contributes no writes and is silently skipped. -/
theorem c8_batch_merge_restricted (p : List IES) (arrays : List Arr)
    (tempValues : List (List Nat)) (retMap rm' : List (Arr × List Nat))
    (arr : Arr) (idx : Nat)
    (hmerge : mergeBatchValues p arrays tempValues retMap = some rm')
    (hpresent : (lookupElems retMap arr).isSome = true)
    (hout : ∀ f ∈ p, idx ∉ (lookupElems f.elements arr).getD []) :
    byteAt rm' arr idx = byteAt retMap arr idx := by
  unfold mergeBatchValues at hmerge
  generalize hz : arrays.zip tempValues = zl at hmerge
  clear hz
  induction zl generalizing retMap with
  | nil =>
    simp only [List.foldlM_nil] at hmerge
    rw [Option.some.inj hmerge]
  | cons pr zl ih =>
    cases hl : lookupElems retMap pr.1 with
    | some oldv =>
      by_cases hlen : oldv.length = pr.2.length
      · simp only [List.foldlM_cons, hl, if_pos hlen, Option.bind_eq_bind,
          Option.some_bind] at hmerge
        have hpres1 : (lookupElems (setElems retMap pr.1
            (p.foldl (fun v f =>
              match lookupElems f.elements pr.1 with
              | some ds => writeIndices v pr.2 ds
              | none => v) oldv)) arr).isSome = true := by
          rw [lookupElems_setElems]
          by_cases hpa : pr.1 = arr
          · rw [if_pos hpa]
            cases hle : lookupElems retMap arr <;> simp_all
          · rw [if_neg hpa]
            exact hpresent
        have hstep : byteAt (setElems retMap pr.1
            (p.foldl (fun v f =>
              match lookupElems f.elements pr.1 with
              | some ds => writeIndices v pr.2 ds
              | none => v) oldv)) arr idx = byteAt retMap arr idx := by
          unfold byteAt
          rw [lookupElems_setElems]
          by_cases hpa : pr.1 = arr
          · subst hpa
            rw [if_pos rfl, hl]
            have hch := writeChain_getD_not_mem p pr.1 pr.2 idx hout oldv
            simp only [List.getD_eq_getElem?_getD] at hch
            simp [hch]
          · rw [if_neg hpa]
        rw [← hstep]
        exact ih _ hpres1 hmerge
      · simp only [List.foldlM_cons, hl, if_neg hlen] at hmerge
        simp at hmerge
    | none =>
      simp only [List.foldlM_cons, hl, Option.bind_eq_bind,
        Option.some_bind] at hmerge
      have happ : lookupElems (retMap ++ [(pr.1, pr.2)]) arr = lookupElems retMap arr :=
        lookupElems_append_of_isSome _ _ _ hpresent
      have hpres1 : (lookupElems (retMap ++ [(pr.1, pr.2)]) arr).isSome = true := by
        rw [happ]; exact hpresent
      have hrec := ih (retMap ++ [(pr.1, pr.2)]) hpres1 hmerge
      rw [hrec]
      unfold byteAt
      rw [happ]

/-- A concrete constituent factor recording byte 0 of array a. -/
def c8factor : IES :=
  { elements := [(arrA, [0])], wholeObjects := []
    exprs := [.cmp .eq (.const 8 1) (rdOf arrA 0)] }

/-- A running map that already holds partial values for array a. -/
def c8ret : List (Arr × List Nat) := [(arrA, [1, 2, 3, 4])]

/-- The merged map of the concrete batch. -/
def c8merged : List (Arr × List Nat) :=
  (mergeBatchValues [c8factor] [arrA] [[9, 9, 9, 9]] c8ret).getD []

/-- Witness for C8 at a concrete batch: index 2 is not recorded by the
factor, so its byte survives the merge. -/
theorem c8_batch_merge_restricted_witness :
    byteAt c8merged arrA 2 = byteAt c8ret arrA 2 :=
  c8_batch_merge_restricted [c8factor] [arrA] [[9, 9, 9, 9]] c8ret c8merged
    arrA 2 (by decide) (by decide) (by decide)

theorem perFactorLoop_cons (inner : InnerSolver) (f : IES) (rest : List IES)
    (rm : List (Arr × List Nat)) :
    perFactorLoop inner (f :: rest) rm =
      if f.exprs.length < 1 then .err
      else if (calculateArrayReferences f).isEmpty then perFactorLoop inner rest rm
      else
        match inner f.exprs (calculateArrayReferences f) with
        | .fail => .failed
        | .unsat => .noSolution
        | .sat tempValues =>
          if tempValues.length = (calculateArrayReferences f).length then
            match mergeFactorValues f (calculateArrayReferences f) tempValues rm with
            | some rm2 => perFactorLoop inner rest rm2
            | none => .err
          else .err := rfl

theorem perFactorLoop_append (inner : InnerSolver) (xs ys : List IES)
    (rm : List (Arr × List Nat)) :
    perFactorLoop inner (xs ++ ys) rm =
      match perFactorLoop inner xs rm with
      | .done rm2 => perFactorLoop inner ys rm2
      | .err => .err
      | .failed => .failed
      | .noSolution => .noSolution := by
  induction xs generalizing rm with
  | nil => rfl
  | cons f xs ih =>
    rw [List.cons_append, perFactorLoop_cons, perFactorLoop_cons]
    by_cases h1 : f.exprs.length < 1
    · simp [h1]
    · simp only [if_neg h1]
      by_cases h2 : (calculateArrayReferences f).isEmpty
      · simp only [if_pos h2]
        exact ih rm
      · simp only [if_neg h2]
        cases hres : inner f.exprs (calculateArrayReferences f) with
        | fail => simp
        | unsat => simp
        | sat tv =>
          by_cases h3 : tv.length = (calculateArrayReferences f).length
          · simp only [if_pos h3]
            cases hm : mergeFactorValues f (calculateArrayReferences f) tv rm with
            | some rm2 => exact ih rm2
            | none => simp
          · simp [h3]

theorem batchLoop_cons (inner : InnerSolver) (p : List IES)
    (rest : List (List IES)) (rm : List (Arr × List Nat)) :
    batchLoop inner (p :: rest) rm =
      match batchArrays p with
      | none => .err
      | some arrays =>
        match inner (batchConstraints p) arrays with
        | .fail => .failed
        | .unsat => .noSolution
        | .sat tempValues =>
          if tempValues.length = arrays.length then
            match mergeBatchValues p arrays tempValues rm with
            | some rm2 => batchLoop inner rest rm2
            | none => .err
          else .err := rfl

theorem batchLoop_append (inner : InnerSolver) (xs ys : List (List IES))
    (rm : List (Arr × List Nat)) :
    batchLoop inner (xs ++ ys) rm =
      match batchLoop inner xs rm with
      | .done rm2 => batchLoop inner ys rm2
      | .err => .err
      | .failed => .failed
      | .noSolution => .noSolution := by
  induction xs generalizing rm with
  | nil => rfl
  | cons p xs ih =>
    rw [List.cons_append, batchLoop_cons, batchLoop_cons]
    cases hba : batchArrays p with
    | none => simp
    | some arrays =>
      cases hres : inner (batchConstraints p) arrays with
      | fail => simp only [hres]
      | unsat => simp only [hres]
      | sat tv =>
        simp only [hres]
        by_cases h3 : tv.length = arrays.length
        · simp only [if_pos h3]
          cases hm : mergeBatchValues p arrays tv rm with
          | some rm2 => simp only [hm]; exact ih rm2
          | none => simp only [hm]
        · simp [h3]

/-- C7: in both modes, when the inner solver reports no solution for a
factor's (resp. batch's) sub-query, the whole `get_initial_values` call stops
there and reports no solution (the source clears the values vector); when a
sub-query fails outright, the whole call fails (again with cleared values).
The factor (batch) is an arbitrary position in the processing order whose
predecessors completed normally, and the factors (batches) after it are
arbitrary — they are never consulted. -/
theorem c7_error_propagation :
    (∀ (inner : InnerSolver) (q : Query) (objects : List Arr)
       (pre : List IES) (f : IES) (post : List IES) (rm : List (Arr × List Nat)),
      getAllIndependentConstraintsSets q = some (pre ++ f :: post) →
      perFactorLoop inner pre [] = .done rm →
      1 ≤ f.exprs.length →
      (calculateArrayReferences f).isEmpty = false →
      (inner f.exprs (calculateArrayReferences f) = .unsat →
        computeInitialValuesPerFactor inner q objects = .noSolution) ∧
      (inner f.exprs (calculateArrayReferences f) = .fail →
        computeInitialValuesPerFactor inner q objects = .failed)) ∧
    (∀ (inner : InnerSolver) (threshold : Nat) (q : Query) (objects : List Arr)
       (factors : List IES) (preP : List (List IES)) (p : List IES)
       (postP : List (List IES)) (rm : List (Arr × List Nat)) (arrays : List Arr),
      getAllIndependentConstraintsSets q = some factors →
      batchSplit threshold (sortByExprCount factors) [] 0 = preP ++ p :: postP →
      batchLoop inner preP [] = .done rm →
      batchArrays p = some arrays →
      (inner (batchConstraints p) arrays = .unsat →
        computeInitialValuesBatch inner threshold q objects = .noSolution) ∧
      (inner (batchConstraints p) arrays = .fail →
        computeInitialValuesBatch inner threshold q objects = .failed)) := by
  constructor
  · intro inner q objects pre f post rm hfac hpre hlen harr
    have hloop : ∀ res : InnerRes, inner f.exprs (calculateArrayReferences f) = res →
        perFactorLoop inner (pre ++ f :: post) [] =
          (match res with
           | .fail => .failed
           | .unsat => .noSolution
           | .sat tv => perFactorLoop inner (f :: post) rm) := by
      intro res hres
      rw [perFactorLoop_append, hpre]
      show perFactorLoop inner (f :: post) rm = _
      match res with
      | .fail =>
        rw [perFactorLoop_cons, if_neg (by omega), if_neg (by simp [harr]), hres]
      | .unsat =>
        rw [perFactorLoop_cons, if_neg (by omega), if_neg (by simp [harr]), hres]
      | .sat tv => rfl
    constructor
    · intro hres
      unfold computeInitialValuesPerFactor
      simp only [hfac]
      rw [hloop .unsat hres]
    · intro hres
      unfold computeInitialValuesPerFactor
      simp only [hfac]
      rw [hloop .fail hres]
  · intro inner threshold q objects factors preP p postP rm arrays hfac hsplit
      hpre hba
    have hloop : ∀ res : InnerRes, inner (batchConstraints p) arrays = res →
        batchLoop inner (preP ++ p :: postP) [] =
          (match res with
           | .fail => .failed
           | .unsat => .noSolution
           | .sat tv => batchLoop inner (p :: postP) rm) := by
      intro res hres
      rw [batchLoop_append, hpre]
      show batchLoop inner (p :: postP) rm = _
      match res with
      | .fail => rw [batchLoop_cons]; simp only [hba]; rw [hres]
      | .unsat => rw [batchLoop_cons]; simp only [hba]; rw [hres]
      | .sat tv => rfl
    constructor
    · intro hres
      unfold computeInitialValuesBatch
      simp only [hfac, hsplit]
      rw [hloop .unsat hres]
    · intro hres
      unfold computeInitialValuesBatch
      simp only [hfac, hsplit]
      rw [hloop .fail hres]

/-- A concrete initial-values query: the recorded constraints of `c3state`
with the false-constant query expression. -/
def c7query : Query :=
  { cm := c3state, constraints := c3state.constraints, expr := falseExpr }

/-- The single factor of `c7query`. -/
def c7factor : IES := ((getAllIndependentConstraintsSets c7query).getD []).getD 0 IES.empty

/-- Witness for C7: an inner solver answering no-solution (resp. failure) on
the only factor makes the whole call report no solution (resp. fail), in both
modes. -/
theorem c7_error_propagation_witness :
    computeInitialValuesPerFactor (fun _ _ => InnerRes.unsat) c7query [arrA] =
      .noSolution ∧
    computeInitialValuesBatch (fun _ _ => InnerRes.fail) 800 c7query [arrA] =
      .failed :=
  ⟨(c7_error_propagation.1 (fun _ _ => .unsat) c7query [arrA] [] c7factor [] []
      (by decide) rfl (by decide) (by decide)).1 rfl,
   (c7_error_propagation.2 (fun _ _ => .fail) 800 c7query [arrA] [c7factor] []
      [c7factor] [] [] ((batchArrays [c7factor]).getD [])
      (by decide) (by decide) rfl (by decide)).2 rfl⟩

theorem evalE_cmp_ult_eq_one {A : Asgn} {l r : Expr}
    (h : evalE A (.cmp .ult l r) = 1) : evalE A l < evalE A r := by
  simp only [evalE] at h
  by_cases hc : evalCmpB .ult l.width (evalE A l) (evalE A r) = true
  · simpa [evalCmpB] using hc
  · rw [if_neg hc] at h
    simp at h

/-- First constraint of the unsatisfiable pair: Ult(Read(b,0), 2). -/
def c2low : Expr := .cmp .ult (rdOf arrB 0) (.const 8 2)

/-- Second constraint of the unsatisfiable pair: Ult(5, Read(b,0)). -/
def c2high : Expr := .cmp .ult (.const 8 5) (rdOf arrB 0)

/-- The query expression on the unrelated array c: Eq(0, Read(c,0)). -/
def c2qe : Expr := .cmp .eq (.const 8 0) (rdOf arrC 0)

/-- The manager state holding the unsatisfiable pair (both adds succeed — the
contradiction is not syntactically visible to the manager). -/
def c2state : CM := (addSeq cfgOn 20 CM.empty [c2low, c2high]).getD CM.empty

/-- The validity query at that state. -/
def c2query : Query :=
  { cm := c2state, constraints := c2state.constraints, expr := c2qe }

/-- C2 counterexample: the partition at `c2state` is intact, yet the
independent filter selects no constraints for the query on array c while the
full (unsatisfiable) constraint set vacuously entails the query and the empty
selection does not — the filtered and unfiltered answers differ, so the claim
fails without a satisfiability proviso. -/
theorem c2_filter_counterexample :
    (addSeq cfgOn 20 CM.empty [c2low, c2high]).isSome = true ∧
    c2state.constraints = [c2low, c2high] ∧
    (getIndependentConstraints c2query).2 = [] ∧
    entails c2state.constraints c2qe ∧
    ¬ entails (getIndependentConstraints c2query).2 c2qe := by
  refine ⟨by decide, by decide, by decide, ?_, ?_⟩
  · rw [show c2state.constraints = [c2low, c2high] from by decide]
    intro A hA
    exfalso
    have e1 : evalE A (.cmp .ult (rdOf arrB 0) (.const 8 2)) = 1 :=
      hA c2low (by simp [c2low])
    have e2 : evalE A (.cmp .ult (.const 8 5) (rdOf arrB 0)) = 1 :=
      hA c2high (by simp [c2high])
    have l1 := evalE_cmp_ult_eq_one e1
    have l2 := evalE_cmp_ult_eq_one e2
    have hc2 : evalE A (.const 8 2) = 2 := rfl
    have hc5 : evalE A (.const 8 5) = 5 := rfl
    rw [hc2] at l1
    rw [hc5] at l2
    omega
  · rw [show (getIndependentConstraints c2query).2 = [] from by decide]
    intro h
    have h1 := h (fun _ _ => 1) (fun e he => absurd he (by simp))
    have h0 : evalE (fun _ _ => 1) c2qe = 0 := by decide
    rw [h0] at h1
    exact absurd h1 (by decide)

/-- The satisfiable state of the C2 witness: a single constraint on b. -/
def c2wstate : CM := (addSeq cfgOn 20 CM.empty [c2low]).getD CM.empty

/-- Its single factor. -/
def c2wfactor : IES := c2wstate.factors.getD 0 IES.empty

/-- The witness query for C2, on array c. -/
def c2wquery : Query :=
  { cm := c2wstate, constraints := c2wstate.constraints, expr := c2qe }

/-- Witness for the C2 amended claim at a concrete satisfiable state with an
intact partition. -/
theorem independent_filter_sound_witness :
    entails c2wquery.cm.constraints c2wquery.expr ↔
    entails (getIndependentConstraints c2wquery).2 c2wquery.expr := by
  have hfl : c2wquery.cm.factors = [c2wfactor] := by decide
  have hcl : c2wquery.cm.constraints = [c2low] := by decide
  have hrd : readsOf c2low = [(arrB, some 0)] := by decide
  apply independent_filter_sound c2wquery (fun _ _ => 0)
  · intro e he
    rw [hcl] at he
    simp only [List.mem_singleton] at he
    subst he
    exact ⟨c2wfactor, by rw [hfl]; simp, by decide⟩
  · intro f hf e he
    rw [hfl] at hf
    simp only [List.mem_singleton] at hf
    subst hf
    have hex : c2wfactor.exprs = [c2low] := by decide
    rw [hex] at he
    simp only [List.mem_singleton] at he
    subst he
    rw [hcl]
    simp
  · intro f hf e he a i ht
    rw [hfl] at hf
    simp only [List.mem_singleton] at hf
    subst hf
    have hex : c2wfactor.exprs = [c2low] := by decide
    rw [hex] at he
    simp only [List.mem_singleton] at he
    subst he
    rcases ht with hm | hm <;> rw [hrd] at hm <;>
      simp only [List.mem_singleton] at hm
    · have ha : a = arrB := congrArg Prod.fst hm
      have hi : some i = some 0 := congrArg Prod.snd hm
      have hi2 : i = 0 := Option.some.inj hi
      subst ha; subst hi2
      decide
    · exact absurd (congrArg Prod.snd hm) (by simp)
  · intro f hf g hg
    rw [hfl] at hf hg
    simp only [List.mem_singleton] at hf hg
    subst hf; subst hg
    exact Or.inl rfl
  · intro e he
    rw [hcl] at he
    simp only [List.mem_singleton] at he
    subst he
    decide

/-- An expression on which `addConstraintInternal` takes the plain recording
path: not a duplicate, not a constant, not a conjunction, and not an equality
that would trigger the rewrite pass. -/
def pushesDirectlyB (cfg : Cfg) (rep : List (Expr × IES)) (e : Expr) : Bool :=
  (lookupRep rep e).isNone &&
  (match e with
   | .const _ _ => false
   | .binop .and _ _ => false
   | .cmp .eq l r => !(cfg.rewriteEqualities && l.isConst && !r.isEq)
   | _ => true)

theorem addConstraintInternal_push (cfg : Cfg) (fuel : Nat) (cm : CM) (e : Expr)
    (h : pushesDirectlyB cfg cm.representative e = true) :
    addConstraintInternal cfg (fuel + 1) cm e = some (pushConstraint cm e, false) := by
  simp only [pushesDirectlyB, Bool.and_eq_true, Option.isNone_iff_eq_none] at h
  obtain ⟨hnone, h2⟩ := h
  match e with
  | .const _ _ => simp at h2
  | .binop .and _ _ => simp at h2
  | .cmp .eq l r =>
    simp only [addConstraintInternal, hnone, Option.isSome_none,
      Bool.false_eq_true, if_false]
    have h3 : (!(cfg.rewriteEqualities && l.isConst && !r.isEq)) = true := h2
    have hside : ¬(cfg.rewriteEqualities = true ∧ l.isConst = true ∧
        ¬(r.isEq = true)) := by
      intro hcond
      obtain ⟨ha, hb, hc⟩ := hcond
      rw [ha, hb] at h3
      simp at h3
      exact hc (by simp [h3])
    rw [if_neg hside]
  | .notOptimized _ | .read _ _ _ | .select _ _ _ | .concat _ _
  | .extract _ _ _ | .zext _ _ | .sext _ _ | .not _
  | .binop .add _ _ | .binop .sub _ _ | .binop .mul _ _ | .binop .udiv _ _
  | .binop .sdiv _ _ | .binop .urem _ _ | .binop .srem _ _ | .binop .or _ _
  | .binop .xor _ _ | .binop .shl _ _ | .binop .lshr _ _ | .binop .ashr _ _
  | .cmp .ne _ _ | .cmp .ult _ _ | .cmp .ule _ _ | .cmp .ugt _ _
  | .cmp .uge _ _ | .cmp .slt _ _ | .cmp .sle _ _ | .cmp .sgt _ _
  | .cmp .sge _ _ =>
    simp only [addConstraintInternal, hnone, Option.isSome_none,
      Bool.false_eq_true, if_false]

/-- Dedup fold of `checkConstraintChange` on a duplicate-free snapshot: the
scan reproduces the snapshot itself. -/
theorem dedupFold_eq (l : List Expr) (acc : List Expr) (hl : l.Nodup)
    (hd : ∀ x ∈ l, x ∉ acc) :
    l.foldl (fun s e => if e ∈ s then s else s ++ [e]) acc = acc ++ l := by
  induction l generalizing acc with
  | nil => simp
  | cons a rest ih =>
    simp only [List.foldl_cons]
    rw [if_neg (hd a (List.mem_cons_self a rest))]
    have h1 : rest.Nodup := (List.nodup_cons.mp hl).2
    have h2 : ∀ x ∈ rest, x ∉ acc ++ [a] := by
      intro x hx
      simp only [List.mem_append, List.mem_singleton]
      rintro (hmem | hmem)
      · exact hd x (List.mem_cons_of_mem a hx) hmem
      · exact (List.nodup_cons.mp hl).1 (hmem ▸ hx)
    rw [ih (acc ++ [a]) h1 h2]
    simp

/-- The rebuild loop of `rewriteConstraints` when every rewritten constraint
re-enters through the plain recording path: the surviving sequence is the
visited image of the input, the changed ones are also recorded as added, and
the changed flag reports whether any constraint moved. -/
theorem rewriteLoop_plain (cfg : Cfg) (vis : Expr → Expr) (cs : List Expr)
    (fuel : Nat) (cm : CM) (changed : Bool)
    (hplain : ∀ ce ∈ cs, vis ce = ce ∨
      pushesDirectlyB cfg cm.representative (vis ce) = true)
    (hfuel : cs.length + 1 ≤ fuel) :
    rewriteLoop cfg fuel vis cm cs changed =
      some ({ cm with
                constraints := cm.constraints ++ cs.map vis
                addedConstraints := cm.addedConstraints ++
                  (cs.filter (fun ce => !decide (vis ce = ce))).map vis },
            changed || cs.any (fun ce => !decide (vis ce = ce))) := by
  induction cs generalizing fuel cm changed with
  | nil =>
    obtain ⟨f, rfl⟩ : ∃ f, fuel = f + 1 := ⟨fuel - 1, by omega⟩
    simp [rewriteLoop]
  | cons ce rest ih =>
    obtain ⟨f, rfl⟩ : ∃ f, fuel = f + 1 := ⟨fuel - 1, by omega⟩
    have hfr : rest.length + 1 ≤ f := by
      simp only [List.length_cons] at hfuel; omega
    by_cases h : vis ce = ce
    · have hpl2 : ∀ ce2 ∈ rest, vis ce2 = ce2 ∨
          pushesDirectlyB cfg (keepConstraint cm ce).representative
            (vis ce2) = true :=
        fun ce2 hm => hplain ce2 (List.mem_cons_of_mem _ hm)
      rw [show rewriteLoop cfg (f + 1) vis cm (ce :: rest) changed =
          rewriteLoop cfg f vis (keepConstraint cm ce) rest changed from by
        simp [rewriteLoop, h]]
      rw [ih f (keepConstraint cm ce) changed hpl2 hfr]
      simp [keepConstraint, h]
    · have hp : pushesDirectlyB cfg cm.representative (vis ce) = true := by
        rcases hplain ce (List.mem_cons_self ce rest) with h1 | h1
        · exact absurd h1 h
        · exact h1
      obtain ⟨f2, rfl⟩ : ∃ f2, f = f2 + 1 := ⟨f - 1, by omega⟩
      have hpl2 : ∀ ce2 ∈ rest, vis ce2 = ce2 ∨
          pushesDirectlyB cfg (pushConstraint cm (vis ce)).representative
            (vis ce2) = true :=
        fun ce2 hm => hplain ce2 (List.mem_cons_of_mem _ hm)
      simp only [rewriteLoop]
      rw [if_neg h]
      rw [addConstraintInternal_push cfg f2 cm (vis ce) hp]
      show rewriteLoop cfg (f2 + 1) vis (pushConstraint cm (vis ce)) rest true =
        _
      rw [ih (f2 + 1) (pushConstraint cm (vis ce)) true hpl2 hfr]
      simp [pushConstraint, h]

/-- Diff scan of `checkConstraintChange` on duplicate-free lists: the rebuilt
constraints missing from the snapshot come out as added (in order), snapshot
entries missing from the rebuilt sequence as deleted. -/
theorem scanDiff (new : List Expr) (A R : List Expr) (hn : new.Nodup)
    (hR : R.Nodup) :
    new.foldl
      (fun (p : List Expr × List Expr) c =>
        if c ∈ p.2 then (p.1, p.2.erase c) else (p.1 ++ [c], p.2)) (A, R) =
      (A ++ new.filter (fun c => decide (c ∉ R)),
       R.filter (fun c => decide (c ∉ new))) := by
  induction new generalizing A R with
  | nil => simp
  | cons c rest ih =>
    have hcr : c ∉ rest := (List.nodup_cons.mp hn).1
    have hrest : rest.Nodup := (List.nodup_cons.mp hn).2
    simp only [List.foldl_cons]
    by_cases hc : c ∈ R
    · rw [if_pos hc]
      rw [ih A (R.erase c) hrest (hR.erase c)]
      simp only [Prod.mk.injEq]
      constructor
      · rw [List.filter_cons_of_neg (by simp [hc])]
        congr 1
        apply List.filter_congr
        intro x hx
        have hxc : x ≠ c := fun he => hcr (he ▸ hx)
        simp [List.mem_erase_of_ne hxc]
      · rw [List.Nodup.erase_eq_filter hR, List.filter_filter]
        apply List.filter_congr
        intro x hx
        by_cases h1 : x = c <;> by_cases h2 : x ∈ rest <;>
          simp [h1, h2, List.mem_cons]
    · rw [if_neg hc]
      rw [ih (A ++ [c]) R hrest hR]
      simp only [Prod.mk.injEq]
      constructor
      · rw [List.filter_cons_of_pos (by simp [hc])]
        simp
      · apply List.filter_congr
        intro x hx
        have hxc : x ≠ c := fun he => hc (he ▸ hx)
        simp [List.mem_cons, hxc]

/-- Lookup after a `setEq` write at the same key returns the written value. -/
theorem lookupEq_setEq_self (m : List (Expr × Expr)) (k v : Expr) :
    lookupEq (setEq m k v) k = some v := by
  induction m with
  | nil => simp [setEq, lookupEq, List.find?]
  | cons p rest ih =>
    obtain ⟨a, b⟩ := p
    by_cases hak : a = k
    · simp [setEq, hak, lookupEq, List.find?]
    · simp only [setEq, if_neg hak]
      simpa [lookupEq, List.find?, hak] using ih

/-- Lookup is unaffected by erasing a different key. -/
theorem lookupEq_eraseEq_ne (m : List (Expr × Expr)) (k k2 : Expr)
    (h : k ≠ k2) : lookupEq (eraseEq m k2) k = lookupEq m k := by
  induction m with
  | nil => rfl
  | cons p rest ih =>
    obtain ⟨a, b⟩ := p
    by_cases hak : a = k2
    · rw [show eraseEq ((a, b) :: rest) k2 = eraseEq rest k2 from by
        simp [eraseEq, hak]]
      rw [ih]
      have hne : a ≠ k := fun he => h (he ▸ hak)
      simp [lookupEq, List.find?, hne]
    · rw [show eraseEq ((a, b) :: rest) k2 = (a, b) :: eraseEq rest k2 from by
        simp [eraseEq, hak]]
      by_cases hk : a = k
      · simp [lookupEq, List.find?, hk]
      · simpa [lookupEq, List.find?, hk] using ih

/-- The key that `updateEqualities` uses for an added or deleted constraint:
an equality with a constant left side is keyed by its right side, anything
else by itself. -/
def eqKeyOf (e : Expr) : Expr :=
  match e with
  | .cmp .eq l r => if l.isConst then r else .cmp .eq l r
  | _ => e

/-- One erase step of `updateEqualities` is an `eraseEq` at the constraint's
key. -/
theorem eqEraseStep_eraseEq (m : List (Expr × Expr)) (d : Expr) :
    eqEraseStep m d = eraseEq m (eqKeyOf d) := by
  match d with
  | .cmp .eq l r =>
    by_cases hc : l.isConst <;> simp [eqEraseStep, eqKeyOf, hc]
  | .const _ _ | .notOptimized _ | .read _ _ _ | .select _ _ _ | .concat _ _
  | .extract _ _ _ | .zext _ _ | .sext _ _ | .not _ | .binop _ _ _
  | .cmp .ne _ _ | .cmp .ult _ _ | .cmp .ule _ _ | .cmp .ugt _ _
  | .cmp .uge _ _ | .cmp .slt _ _ | .cmp .sle _ _ | .cmp .sgt _ _
  | .cmp .sge _ _ => rfl

/-- The erase pass of `updateEqualities` leaves a key alone when no deleted
constraint is keyed by it. -/
theorem lookupEq_eraseFold (ds : List Expr) (m : List (Expr × Expr))
    (k : Expr) (h : ∀ d ∈ ds, eqKeyOf d ≠ k) :
    lookupEq (ds.foldl eqEraseStep m) k = lookupEq m k := by
  induction ds generalizing m with
  | nil => rfl
  | cons d rest ih =>
    simp only [List.foldl_cons]
    rw [ih (eqEraseStep m d) (fun d2 hm => h d2 (List.mem_cons_of_mem _ hm))]
    rw [eqEraseStep_eraseEq]
    exact lookupEq_eraseEq_ne m k (eqKeyOf d)
      (fun he => h d (List.mem_cons_self d rest) he.symm)

/-- The `Eq(constant, rhs)` branch of `addConstraintInternal` with
rewrite-equalities on: the existing constraints are rebuilt under the
substitution of `rhs` by the constant, the changed ones are recorded as
added, and the equality itself is pushed last. -/
theorem addConstraintInternal_eqRewrite (cfg : Cfg) (f : Nat) (cm : CM)
    (l r : Expr)
    (hrw : cfg.rewriteEqualities = true)
    (hconst : l.isConst = true)
    (hneq : r.isEq = false)
    (hdup : lookupRep cm.representative (.cmp .eq l r) = none)
    (hold : cm.old = [])
    (hplain : ∀ ce ∈ cm.constraints, substOneE r l ce = ce ∨
      pushesDirectlyB cfg cm.representative (substOneE r l ce) = true)
    (hfuel : cm.constraints.length + 2 ≤ f) :
    addConstraintInternal cfg (f + 1) cm (.cmp .eq l r) =
      some (pushConstraint
        { cm with
            old := cm.constraints
            constraints := cm.constraints.map (substOneE r l)
            addedConstraints := cm.addedConstraints ++
              (cm.constraints.filter
                (fun ce => !decide (substOneE r l ce = ce))).map
                (substOneE r l) }
        (.cmp .eq l r),
        cm.constraints.any (fun ce => !decide (substOneE r l ce = ce))) := by
  have hcond : cfg.rewriteEqualities = true ∧ l.isConst = true ∧
      ¬(r.isEq = true) := ⟨hrw, hconst, by simp [hneq]⟩
  obtain ⟨f1, rfl⟩ : ∃ f1, f = f1 + 1 := ⟨f - 1, by omega⟩
  have hloop := rewriteLoop_plain cfg (substOneE r l) cm.constraints f1
    { cm with old := cm.constraints, constraints := [] } false hplain
    (by simpa using hfuel)
  simp only [addConstraintInternal, hdup, Option.isSome_none,
    Bool.false_eq_true, if_false]
  rw [if_pos hcond]
  simp only [rewriteConstraintsF, hold, List.isEmpty_nil, if_true]
  rw [hloop]
  simp only [Option.bind]
  simp

/-- C6: with rewrite-equalities enabled, `add_constraint` on an expression
`Eq(constant, rhs)` — `rhs` not itself an equality — that is not a recorded
duplicate and survives simplification unchanged rewrites every existing
top-level constraint under the substitution of `rhs` by the constant
(re-adding the changed ones through the internal add), appends the equality
itself, and records `rhs → constant` in the equalities map.  The hypotheses
pin the re-added constraints to the plain recording path and keep the diff
scan unambiguous: duplicate-free constraint sequences and no existing
constraint keyed by `rhs` in the equalities map. -/
theorem c6_eq_rewrite (cfg : Cfg) (fuel : Nat) (cm : CM) (l r : Expr)
    (hrw : cfg.rewriteEqualities = true)
    (hind : cfg.useIndependentSolver = false)
    (hconst : l.isConst = true)
    (hneq : r.isEq = false)
    (hdup : lookupRep cm.representative (.cmp .eq l r) = none)
    (hold : cm.old = [])
    (hadd : cm.addedConstraints = [])
    (hdel : cm.deleteConstraints = [])
    (hsimp : cm.simplify (.cmp .eq l r) = .cmp .eq l r)
    (hplain : ∀ ce ∈ cm.constraints, substOneE r l ce = ce ∨
      pushesDirectlyB cfg cm.representative (substOneE r l ce) = true)
    (hnodupC : cm.constraints.Nodup)
    (hnodupM : (cm.constraints.map (substOneE r l) ++
      [Expr.cmp CmpKind.eq l r]).Nodup)
    (hnotin : Expr.cmp CmpKind.eq l r ∉ cm.constraints)
    (hkeys : ∀ ce ∈ cm.constraints, eqKeyOf ce ≠ r)
    (hfuel : cm.constraints.length + 3 ≤ fuel) :
    ∃ res : CM,
      addConstraint cfg fuel cm (.cmp .eq l r) = some (res, true) ∧
      res.constraints = cm.constraints.map (substOneE r l) ++
        [Expr.cmp CmpKind.eq l r] ∧
      lookupEq res.equalities r = some l := by
  obtain ⟨f, rfl⟩ : ∃ f, fuel = f + 1 := ⟨fuel - 1, by omega⟩
  have hfuel2 : cm.constraints.length + 2 ≤ f := by omega
  cases hany : cm.constraints.any (fun ce => !decide (substOneE r l ce = ce))
  case false =>
    have hfilter : cm.constraints.filter
        (fun ce => !decide (substOneE r l ce = ce)) = [] :=
      List.filter_eq_nil_iff.mpr (fun a ha => List.any_eq_false.mp hany a ha)
    refine ⟨{ cm with
        constraints := cm.constraints.map (substOneE r l) ++ [.cmp .eq l r]
        old := []
        addedConstraints := []
        deleteConstraints := []
        equalities := setEq cm.equalities r l }, ?_, rfl,
      lookupEq_setEq_self cm.equalities r l⟩
    unfold addConstraint
    rw [if_neg (by simp [hdup]), if_neg (by simp [hold, hadd, hdel]), hsimp,
      if_neg (by rw [show (Expr.cmp CmpKind.eq l r).isFalse = false from rfl]
                 simp)]
    rw [addConstraintInternal_eqRewrite cfg f cm l r hrw hconst hneq hdup hold
      hplain hfuel2]
    simp only [Option.bind_eq_bind, Option.some_bind, hany, hfilter, hadd,
      hdel, hind, pushConstraint, List.nil_append, List.append_nil,
      Bool.false_eq_true, if_false, eq_self_iff_true, if_true]
    simp [updateEqualities, eqAddStep, hconst, hdel]
  case true =>
    refine ⟨{ cm with
        constraints := cm.constraints.map (substOneE r l) ++ [.cmp .eq l r]
        old := []
        addedConstraints := []
        deleteConstraints := []
        equalities :=
          (cm.constraints.filter (fun c => decide (c ∉
              cm.constraints.map (substOneE r l) ++
                [Expr.cmp CmpKind.eq l r]))).foldl eqEraseStep
            (setEq (((cm.constraints.map (substOneE r l)).filter
                (fun c => decide (c ∉ cm.constraints))).foldl eqAddStep
              cm.equalities) r l) }, ?_, rfl, ?_⟩
    · unfold addConstraint
      rw [if_neg (by simp [hdup]), if_neg (by simp [hold, hadd, hdel]), hsimp,
        if_neg (by rw [show (Expr.cmp CmpKind.eq l r).isFalse = false from rfl]
                   simp)]
      rw [addConstraintInternal_eqRewrite cfg f cm l r hrw hconst hneq hdup
        hold hplain hfuel2]
      have hc2 : checkConstraintChange
          { cm with
              constraints := cm.constraints.map (substOneE r l) ++
                [Expr.cmp CmpKind.eq l r]
              old := cm.constraints
              addedConstraints := []
              deleteConstraints := [] } =
          { cm with
              constraints := cm.constraints.map (substOneE r l) ++
                [Expr.cmp CmpKind.eq l r]
              old := []
              addedConstraints := (cm.constraints.map (substOneE r l)).filter
                  (fun c => decide (c ∉ cm.constraints)) ++
                [Expr.cmp CmpKind.eq l r]
              deleteConstraints := cm.constraints.filter (fun c => decide (c ∉
                cm.constraints.map (substOneE r l) ++
                  [Expr.cmp CmpKind.eq l r])) } := by
        simp only [checkConstraintChange]
        rw [dedupFold_eq cm.constraints [] hnodupC (by simp)]
        simp only [List.nil_append]
        rw [scanDiff (cm.constraints.map (substOneE r l) ++
          [Expr.cmp CmpKind.eq l r]) [] cm.constraints hnodupM hnodupC]
        simp [List.filter_append, hnotin]
      simp only [Option.bind_eq_bind, Option.some_bind, hany, hadd, hdel,
        hind, pushConstraint, List.nil_append, List.append_nil,
        Bool.false_eq_true, if_false, eq_self_iff_true, if_true]
      rw [hc2]
      simp only [updateEqualities]
      rw [List.foldl_append]
      simp [eqAddStep, hconst]
    · have hk : ∀ d ∈ cm.constraints.filter (fun c => decide (c ∉
          cm.constraints.map (substOneE r l) ++ [Expr.cmp CmpKind.eq l r])),
          eqKeyOf d ≠ r :=
        fun d hd => hkeys d (List.mem_filter.mp hd).1
      show lookupEq _ r = some l
      rw [lookupEq_eraseFold _ _ r hk]
      exact lookupEq_setEq_self _ r l

/-- Configuration with rewrite-equalities on and the independent solver
off. -/
def cfgRwOnly : Cfg := { rewriteEqualities := true, useIndependentSolver := false }

/-- Manager state (rewrite-equalities on, independent solver off) after
adding Ult(Read(a,0), Read(a,1)). -/
def c6state : CM :=
  (addSeq cfgRwOnly 20 CM.empty
    [.cmp .ult (rdOf arrA 0) (rdOf arrA 1)]).getD CM.empty

/-- Witness for C6: adding Eq(5, Read(a,0)) to the state holding
Ult(Read(a,0), Read(a,1)) rewrites the existing constraint to
Ult(5, Read(a,1)), appends the equality, and maps Read(a,0) to 5 in the
equalities map. -/
theorem c6_eq_rewrite_witness :
    cfgRwOnly.rewriteEqualities = true ∧
    ∃ res : CM,
      addConstraint cfgRwOnly 10 c6state
          (.cmp .eq (.const 8 5) (rdOf arrA 0)) = some (res, true) ∧
      res.constraints = c6state.constraints.map
          (substOneE (rdOf arrA 0) (.const 8 5)) ++
        [Expr.cmp CmpKind.eq (.const 8 5) (rdOf arrA 0)] ∧
      lookupEq res.equalities (rdOf arrA 0) = some (.const 8 5) :=
  ⟨by decide, c6_eq_rewrite cfgRwOnly 10 c6state (.const 8 5) (rdOf arrA 0)
    (by decide) (by decide) (by decide) (by decide) (by decide) (by decide)
    (by decide) (by decide) (by decide) (by decide) (by decide) (by decide)
    (by decide) (by decide) (by decide)⟩

end KleeER
